import Mathlib

/-!
Verification of the grammar/parser drift-detection tool (generate_parser.py).

Strings are modelled as `List Char`.  Python regular-expression operations
are embedded as explicit character scanners that reproduce the semantics of
`re.sub` / `re.finditer` / `re.findall` for the concrete patterns used by the
source (left-to-right non-overlapping matching; the character classes of the
patterns are ASCII, and `str.lower()` / `str.capitalize()` are modelled on
ASCII, which is faithful for the identifier inputs the tool works on).
-/

namespace GenParser

/-! ### Character classes (ASCII, as in the source's regex classes) -/

def isUp (c : Char) : Bool := 'A' ≤ c && c ≤ 'Z'

def isLo (c : Char) : Bool := 'a' ≤ c && c ≤ 'z'

def isDig (c : Char) : Bool := '0' ≤ c && c ≤ '9'

/-- The class `[a-z0-9]` from the second substitution of `to_snake_case`. -/
def isLoDig (c : Char) : Bool := isLo c || isDig c

/-- Python `\s` on ASCII text. -/
def isWs (c : Char) : Bool :=
  c = ' ' || c = '\t' || c = '\n' || c = '\r' || c = '\x0b' || c = '\x0c'

/-- The class `[a-zA-Z_]` (tail of a grammar rule name). -/
def isIdentCh (c : Char) : Bool := isLo c || isUp c || c = '_'

/-- The class `[A-Z_]` (grammar token names). -/
def isTokCh (c : Char) : Bool := isUp c || c = '_'

/-- The class `\w` on ASCII text. -/
def isWordCh (c : Char) : Bool := isLo c || isUp c || isDig c || c = '_'

/-- The class `[a-z_]` (snake_case method names). -/
def isSnakeCh (c : Char) : Bool := isLo c || c = '_'

/-- Whether a list of characters starts with a lowercase letter (i.e. the
regex fragment `[a-z]+` can match at its head). -/
def headLo : List Char → Bool
  | d :: _ => isLo d
  | [] => false

/-- ASCII lower-casing of one character (Python `str.lower()` on ASCII). -/
def loCh (c : Char) : Char := if isUp c then Char.ofNat (c.toNat + 32) else c

/-- ASCII upper-casing of one character (Python `str.upper()` on ASCII). -/
def upCh (c : Char) : Char := if isLo c then Char.ofNat (c.toNat - 32) else c

/-! ### to_snake_case

The source is
  `s1 = re.sub('(.)([A-Z][a-z]+)', r'\1_\2', name)`
  `return re.sub('([a-z0-9])([A-Z])', r'\1_\2', s1).lower()`
Each `re.sub` is a left-to-right non-overlapping scan; for these patterns
greedy maximal-munch matching is deterministic (no backtracking can succeed
where maximal munch fails, because each following atom is disjoint from the
class being repeated). -/

/-- First substitution pass: `(.)([A-Z][a-z]+)` → `\1_\2`.
`.` matches any character except `'\n'`; `[a-z]+` is the maximal (greedy)
run of at least one lowercase letter.  On a match the scan resumes after the
matched text; on failure it advances one character. -/
def sub1 : List Char → List Char
  | [] => []
  | [c] => [c]
  | c :: u :: rest =>
    if c ≠ '\n' ∧ isUp u ∧ headLo rest then
      c :: '_' :: u :: (rest.takeWhile isLo ++ sub1 (rest.dropWhile isLo))
    else
      c :: sub1 (u :: rest)
termination_by l => l.length
decreasing_by
  · simp only [List.length_cons]
    have h := (List.dropWhile_suffix (l := rest) isLo).sublist.length_le
    omega
  · simp [List.length_cons]

/-- Second substitution pass: `([a-z0-9])([A-Z])` → `\1_\2`.
On a match both characters are consumed; on failure the scan advances one
character. -/
def sub2 : List Char → List Char
  | [] => []
  | [c] => [c]
  | a :: b :: rest =>
    if isLoDig a ∧ isUp b then
      a :: '_' :: b :: sub2 rest
    else
      a :: sub2 (b :: rest)

/-- The first substitution pass again, in structurally recursive form so
that it evaluates inside the kernel: the flag records whether the scan is
currently copying the lowercase run of a match it has just emitted (the scan
position is then past the run, at the first non-lowercase character).
`sub1A false = sub1` is proved below. -/
def sub1A : Bool → List Char → List Char
  | _, [] => []
  | true, x :: xs =>
    if isLo x then x :: sub1A true xs
    else
      match xs with
      | [] => [x]
      | u :: rest =>
        if x ≠ '\n' ∧ isUp u ∧ headLo rest then x :: '_' :: u :: sub1A true rest
        else x :: sub1A false (u :: rest)
  | false, x :: xs =>
    match xs with
    | [] => [x]
    | u :: rest =>
      if x ≠ '\n' ∧ isUp u ∧ headLo rest then x :: '_' :: u :: sub1A true rest
      else x :: sub1A false (u :: rest)

/-- `to_snake_case` from the source: the two substitution passes followed by
lower-casing. -/
def to_snake_case (l : List Char) : List Char := (sub2 (sub1A false l)).map loCh

/-! ### The specification's description of the snake-case conversion

The spec describes the conversion as the insertion of an underscore at every
word boundary and then lower-casing the result.  A position is a boundary
when its character is uppercase and either (rule b) the previous character
is a lowercase letter or a digit, or (rule a, with the acronym clause) the
boundary character begins a capitalized word — it is followed by a lowercase
letter — and there is any previous character at all (not a newline; for an
acronym run the boundary thereby falls before the last capital of the run,
as in HTTPServer → http_server). -/

/-- Boundary test: `p` is the previous character, `c` the current one and
`rest` the characters after `c`. -/
def bnd (p c : Char) (rest : List Char) : Bool :=
  isUp c && (isLoDig p || (p ≠ '\n' && headLo rest))

/-- Insert an underscore before every boundary; the first argument is the
previous character. -/
def camelBounds : Char → List Char → List Char
  | _, [] => []
  | p, c :: rest =>
    if bnd p c rest then '_' :: c :: camelBounds c rest
    else c :: camelBounds c rest

/-- Underscore insertion over a whole string (the first character is never a
boundary: it has no predecessor). -/
def specTop : List Char → List Char
  | [] => []
  | c :: rest => c :: camelBounds c rest

/-- The snake-case conversion as the specification words it. -/
def snakeSpec (l : List Char) : List Char := (specTop l).map loCh

/-- Last element of a list with a fallback; unlike `List.getLastD` the
fallback argument is carried unchanged through the recursion, which keeps
induction hypotheses syntactically stable. -/
def lastD {α : Type} : List α → α → α
  | [], d => d
  | [a], _ => a
  | _ :: b :: l, d => lastD (b :: l) d

/-- The first pass does not match at the head of `l` when preceded by `p`
(that is, the scan is at a position where `p` cannot serve as the `.` of a
`(.)([A-Z][a-z]+)` match). -/
def noM (p : Char) : List Char → Prop
  | u :: rest => ¬(p ≠ '\n' ∧ isUp u = true ∧ headLo rest = true)
  | [] => True

/-! ### PascalCase conversion

The source derives a node type name from a snake_case rule name by
`join(word.capitalize() for word in rule.split(lowline))`. -/

/-- Python `str.split` on the underscore character: every underscore is a
separator, adjacent separators produce empty fields, and the empty string
yields one empty field. -/
def splitU : List Char → List (List Char)
  | [] => [[]]
  | '_' :: rest => [] :: splitU rest
  | c :: rest =>
    match splitU rest with
    | w :: ws => (c :: w) :: ws
    | [] => [[c]]

/-- Python `str.capitalize` on ASCII text: upper-case the first character
and lower-case all the others. -/
def capitalize : List Char → List Char
  | [] => []
  | c :: rest => upCh c :: rest.map loCh

/-- The PascalCase node-type name of a snake_case rule name, from the
source's stub synthesis. -/
def toPascalCase (rule : List Char) : List Char :=
  ((splitU rule).map capitalize).flatten

/-- Capitalize only the first character, leaving the rest unchanged (used to
state the round-trip property). -/
def upFirst : List Char → List Char
  | [] => []
  | c :: rest => upCh c :: rest

/-! ### Comment removal in parse_grammar

The source removes line comments first (`re.sub` with pattern slash-slash
dot-star) and then block comments (`re.sub` with the non-greedy block
pattern under DOTALL).  Both substitutions are embedded as single-pass
scanners with a mode flag; they are structurally recursive so they evaluate
in the kernel. -/

/-- Line-comment removal: on `//` delete up to (but not including) the next
newline. -/
def stripLineA : Bool → List Char → List Char
  | _, [] => []
  | true, c :: rest => if c = '\n' then c :: stripLineA false rest else stripLineA true rest
  | false, '/' :: '/' :: rest => stripLineA true rest
  | false, c :: rest => c :: stripLineA false rest

def stripLine (l : List Char) : List Char := stripLineA false l

/-- Is there a block-comment closer ahead?  The non-greedy pattern matches
only if one exists; if not, `re.sub` leaves the text unchanged (no later
opener can match either, since any closer after it would also lie ahead of
this position). -/
def hasClose : List Char → Bool
  | '*' :: '/' :: _ => true
  | _ :: rest => hasClose rest
  | [] => false

/-- Block-comment removal: on `/*` delete through the nearest `*/` when one
exists; an unterminated opener is left in place. -/
def stripBlockA : Bool → List Char → List Char
  | _, [] => []
  | true, '*' :: '/' :: rest => stripBlockA false rest
  | true, _ :: rest => stripBlockA true rest
  | false, '/' :: '*' :: rest =>
    if hasClose rest then stripBlockA true rest
    else '/' :: '*' :: rest
  | false, c :: rest => c :: stripBlockA false rest

def stripBlock (l : List Char) : List Char := stripBlockA false l

/-- Modelled from the spec: a comment-respecting single-pass stripper, in
which a line comment runs from its marker to the end of the line and a block
comment runs from its opener to the nearest closer, an unterminated block
comment extending to the end of the input.  (The spec's §4.2 asks for this
behaviour; the source has no single-pass scanner, so the claims about
"inside a comment" are certified against this reference definition.)
Mode 0 is code, mode 1 a line comment, mode 2 a block comment. -/
def specStripM : Nat → List Char → List Char
  | _, [] => []
  | 0, '/' :: '/' :: rest => specStripM 1 rest
  | 0, '/' :: '*' :: rest => specStripM 2 rest
  | 0, c :: rest => c :: specStripM 0 rest
  | 1, '\n' :: rest => '\n' :: specStripM 0 rest
  | 1, _ :: rest => specStripM 1 rest
  | 2, '*' :: '/' :: rest => specStripM 0 rest
  | _, _ :: rest => specStripM 2 rest

def specStrip (t : List Char) : List Char := specStripM 0 t

/-! ### Grammar symbol extraction -/

/-- Attempt the rule pattern fragment `\s*([a-z][a-zA-Z_]*)\s*:` at the head
of `s` (the `^` anchor is enforced by the scanner).  Maximal munch is
faithful here: after each starred class the following atom is disjoint from
the class, so the regex engine's backtracking can never succeed where the
maximal run fails.  Returns the capture and the suffix after the colon. -/
def matchRule (s : List Char) : Option (List Char × List Char) :=
  match s.dropWhile isWs with
  | c :: s1 =>
    if isLo c then
      match (s1.dropWhile isIdentCh).dropWhile isWs with
      | ':' :: s2 => some (c :: s1.takeWhile isIdentCh, s2)
      | _ => none
    else none
  | [] => none

/-- Attempt the token pattern fragment `\s*([A-Z_]+)\s*:` at the head of
`s`. -/
def matchTok (s : List Char) : Option (List Char × List Char) :=
  match s.dropWhile isWs with
  | c :: s1 =>
    if isTokCh c then
      match (s1.dropWhile isTokCh).dropWhile isWs with
      | ':' :: s2 => some (c :: s1.takeWhile isTokCh, s2)
      | _ => none
    else none
  | [] => none

/-- Add an element to a Python-set modelled as a duplicate-free list. -/
def addSet (x : List Char) (l : List (List Char)) : List (List Char) :=
  if x ∈ l then l else l ++ [x]

/-- The `finditer` scan for rule definitions over MULTILINE input: a match
may start only at a line start; on success the scan resumes after the
matched text (never a newline, the match ends at a colon), on failure it
advances one character.  Fuel-driven so that it evaluates in the kernel;
every step consumes at least one character, so `length + 1` fuel
suffices. -/
def scanRulesF : Nat → List Char → Bool → List (List Char) → List (List Char)
  | 0, _, _, acc => acc
  | _ + 1, [], _, acc => acc
  | fuel + 1, c :: rest, atLS, acc =>
    if atLS then
      match matchRule (c :: rest) with
      | some (n, s2) => scanRulesF fuel s2 false (addSet (to_snake_case n) acc)
      | none => scanRulesF fuel rest (c == '\n') acc
    else scanRulesF fuel rest (c == '\n') acc

/-- The rule set extracted from comment-stripped grammar content. -/
def rulesOf (content : List Char) : List (List Char) :=
  scanRulesF (content.length + 1) content true []

/-- The `finditer` scan for token definitions. -/
def scanToksF : Nat → List Char → Bool → List (List Char) → List (List Char)
  | 0, _, _, acc => acc
  | _ + 1, [], _, acc => acc
  | fuel + 1, c :: rest, atLS, acc =>
    if atLS then
      match matchTok (c :: rest) with
      | some (n, s2) => scanToksF fuel s2 false (addSet n acc)
      | none => scanToksF fuel rest (c == '\n') acc
    else scanToksF fuel rest (c == '\n') acc

/-- The token set extracted from comment-stripped grammar content. -/
def toksOf (content : List Char) : List (List Char) :=
  scanToksF (content.length + 1) content true []

/-- `parse_grammar` from the source: strip line comments, then block
comments, then extract tokens and rules. -/
def parse_grammar (g : List Char) : List (List Char) × List (List Char) :=
  (toksOf (stripBlock (stripLine g)), rulesOf (stripBlock (stripLine g)))

/-! ### Parser method extraction (analyze_cpp_files) -/

/-- Match a literal prefix, returning the rest. -/
def matchLit : List Char → List Char → Option (List Char)
  | [], s => some s
  | _, [] => none
  | p :: ps, c :: cs => if p = c then matchLit ps cs else none

/-- The greedy `\(.*\)` fragment: `.*` cannot cross a newline and
backtracks, so the match runs to the last `)` on the line; returns the
suffix after that closer, or `none` when no closer precedes the end of the
line. -/
def lastClose : List Char → Option (List Char)
  | [] => none
  | '\n' :: _ => none
  | ')' :: rest =>
    match lastClose rest with
    | some r => some r
    | none => some rest
  | _ :: rest => lastClose rest

/-- Attempt the declared-method pattern
`std::unique_ptr<\w+>\s+([a-z_]+)\(.*\)` at the head of `s`. -/
def matchDecl (s : List Char) : Option (List Char × List Char) :=
  match matchLit ("std::unique_ptr<".toList) s with
  | none => none
  | some s1 =>
    match s1.takeWhile isWordCh with
    | [] => none
    | _ :: _ =>
      match s1.dropWhile isWordCh with
      | '>' :: s2 =>
        match s2.takeWhile isWs with
        | [] => none
        | _ :: _ =>
          match (s2.dropWhile isWs).takeWhile isSnakeCh with
          | [] => none
          | name =>
            match (s2.dropWhile isWs).dropWhile isSnakeCh with
            | '(' :: s4 =>
              match lastClose s4 with
              | some s5 => some (name, s5)
              | none => none
            | _ => none
      | _ => none

/-- Attempt the implemented-method pattern `Parser::([a-z_]+)\(.*\)` at the
head of `s`. -/
def matchImpl (s : List Char) : Option (List Char × List Char) :=
  match matchLit ("Parser::".toList) s with
  | none => none
  | some s1 =>
    match s1.takeWhile isSnakeCh with
    | [] => none
    | name =>
      match s1.dropWhile isSnakeCh with
      | '(' :: s2 =>
        match lastClose s2 with
        | some s3 => some (name, s3)
        | none => none
      | _ => none

/-- `re.findall` for the declared-method pattern: try every position, on a
match continue after it, collect captures into a set. -/
def scanDeclsF : Nat → List Char → List (List Char) → List (List Char)
  | 0, _, acc => acc
  | _ + 1, [], acc => acc
  | fuel + 1, c :: rest, acc =>
    match matchDecl (c :: rest) with
    | some (n, s2) => scanDeclsF fuel s2 (addSet n acc)
    | none => scanDeclsF fuel rest acc

/-- The set of declared parser methods found in interface text. -/
def declaredOf (header : List Char) : List (List Char) :=
  scanDeclsF (header.length + 1) header []

/-- `re.findall` for the implemented-method pattern. -/
def scanImplsF : Nat → List Char → List (List Char) → List (List Char)
  | 0, _, acc => acc
  | _ + 1, [], acc => acc
  | fuel + 1, c :: rest, acc =>
    match matchImpl (c :: rest) with
    | some (n, s2) => scanImplsF fuel s2 (addSet n acc)
    | none => scanImplsF fuel rest acc

/-- The set of implemented parser methods found in implementation text. -/
def implementedOf (source : List Char) : List (List Char) :=
  scanImplsF (source.length + 1) source []

/-- `analyze_cpp_files` from the source, on file contents. -/
def analyze_cpp_files (header source : List Char) :
    List (List Char) × List (List Char) :=
  (declaredOf header, implementedOf source)

/-! ### The discrepancy analysis and the report (main) -/

/-- Python set difference on duplicate-free lists. -/
def setDiff (a b : List (List Char)) : List (List Char) :=
  a.filter (fun r => r ∉ b)

/-- The analysis step of `main`:
`missing_declarations = grammar_rules - declared_methods` and
`missing_implementations = grammar_rules - implemented_methods`. -/
def analyze (rules declared implemented : List (List Char)) :
    List (List Char) × List (List Char) :=
  (setDiff rules declared, setDiff rules implemented)

/-- Python string comparison (lexicographic by code point). -/
def lexLt : List Char → List Char → Bool
  | [], [] => false
  | [], _ :: _ => true
  | _ :: _, [] => false
  | a :: xs, b :: ys => if a < b then true else if b < a then false else lexLt xs ys

/-- Insert into an ascending list (Python `sorted`). -/
def sIns (x : List Char) : List (List Char) → List (List Char)
  | [] => [x]
  | y :: ys => if lexLt y x then y :: sIns x ys else x :: y :: ys

/-- Insertion sort, ascending in `lexLt`; agrees with Python `sorted` on
duplicate-free inputs. -/
def sortL : List (List Char) → List (List Char)
  | [] => []
  | x :: xs => sIns x (sortL xs)

/-- One declaration stub line (without the newline):
four spaces of indentation, then the owning-pointer marker, type name,
space, rule name, empty parameter list and semicolon. -/
def declStubLine (r : List Char) : List Char :=
  ("    std::unique_ptr<".toList) ++ toPascalCase r ++ ("> ".toList) ++ r ++ ("();".toList)

/-- One implementation stub block, exactly as the three prints of the
source emit it (including the blank line the final print's embedded newline
produces). -/
def implStubBlock (r : List Char) : List Char :=
  ("std::unique_ptr<".toList) ++ toPascalCase r ++ ("> Parser::".toList) ++ r
    ++ ("() \x7b\n".toList)
    ++ ("    // TODO: Implement parsing logic for ".toList) ++ r ++ ("\n".toList)
    ++ ("    return nullptr;\n\x7d\n\n".toList)

def syncMsg : List Char :=
  ("The parser appears to be in sync with the grammar. No missing items found.\n".toList)

def headerBlock : List Char :=
  ("---Analysis Complete---\n\n".toList)
    ++ ("The following are suggestions for what might be missing from your parser.\n".toList)
    ++ ("Please review them carefully before adding to your code.\n\n".toList)

/-- The declaration section body: one stub line (with newline) per missing
declaration, in sorted order. -/
def declSection (mdecl : List (List Char)) : List Char :=
  ((sortL mdecl).map (fun r => declStubLine r ++ ['\n'])).flatten

/-- The implementation section body. -/
def implSection (mimpl : List (List Char)) : List Char :=
  ((sortL mimpl).map implStubBlock).flatten

/-- The standard output of `main` after the two extractions, as a function
of the three extracted sets. -/
def report (rules declared implemented : List (List Char)) : List Char :=
  let mdecl := setDiff rules declared
  let mimpl := setDiff rules implemented
  if mdecl = [] ∧ mimpl = [] then syncMsg
  else
    headerBlock
      ++ (if mdecl = [] then [] else
        ("---Missing Method Declarations (for include/Parser.h)---\n".toList)
          ++ declSection mdecl ++ ['\n'])
      ++ (if mimpl = [] then [] else
        ("---Missing Method Implementations (for src/Parser.cpp)---\n".toList)
          ++ implSection mimpl)

/-- The whole pipeline of `main` on the three file contents. -/
def runPipeline (grammar header source : List Char) : List Char :=
  report (parse_grammar grammar).2 (declaredOf header) (implementedOf source)

/-! ### Declarative characterizations used by the claims -/

/-- The suffixes of `t` that start just after a newline. -/
def lineSuffixesAux : List Char → List (List Char)
  | [] => []
  | c :: rest => (if c = '\n' then [rest] else []) ++ lineSuffixesAux rest

/-- The suffixes of `t` at line starts: the whole text and every suffix
following a newline (the positions where MULTILINE `^` matches). -/
def lineSuffixes (t : List Char) : List (List Char) := t :: lineSuffixesAux t

/-- The lines of a text, split on newlines (for stating the claim's
line-by-line reading). -/
def linesOf : List Char → List (List Char)
  | [] => [[]]
  | '\n' :: rest => [] :: linesOf rest
  | c :: rest =>
    match linesOf rest with
    | l :: ls => (c :: l) :: ls
    | [] => [[c]]

/-- The rule pattern exactly as claim C7 words it, applied to one line:
optional indentation, a lowercase letter, letters or underscores, and then
immediately a colon. -/
def claimLineRule (line : List Char) : Option (List Char) :=
  match line.dropWhile isWs with
  | c :: s1 =>
    if isLo c then
      match s1.dropWhile isIdentCh with
      | ':' :: _ => some (c :: s1.takeWhile isIdentCh)
      | _ => none
    else none
  | [] => none

/-- The words structure of a simple camelCase identifier: a leading
lowercase word followed by capitalized lowercase words. -/
def camelWords (w : List Char) (ws : List (List Char)) : List Char :=
  w ++ (ws.map upFirst).flatten

/-- A nonempty all-lowercase word. -/
def loWord (v : List Char) : Prop := v ≠ [] ∧ ∀ c ∈ v, isLo c = true

/-- No two consecutive uppercase letters arise from the capitalized words:
every word that is followed by another word has at least two characters. -/
def noAdj : List (List Char) → Prop
  | [] => True
  | [_] => True
  | v :: v' :: ws => 2 ≤ v.length ∧ noAdj (v' :: ws)

/-! ### Facts about the character classes -/

theorem charLe_iff (a b : Char) : a ≤ b ↔ a.toNat ≤ b.toNat := by
  rw [Char.le_def, UInt32.le_def, BitVec.le_def]; rfl

theorem lo_toNat {c : Char} (h : isLo c = true) :
    97 ≤ c.toNat ∧ c.toNat ≤ 122 := by
  have h1 : 'a'.toNat = 97 := rfl
  have h2 : 'z'.toNat = 122 := rfl
  simp only [isLo, Bool.and_eq_true, decide_eq_true_eq, charLe_iff, h1, h2] at h
  omega

theorem up_toNat {c : Char} (h : isUp c = true) :
    65 ≤ c.toNat ∧ c.toNat ≤ 90 := by
  have h1 : 'A'.toNat = 65 := rfl
  have h2 : 'Z'.toNat = 90 := rfl
  simp only [isUp, Bool.and_eq_true, decide_eq_true_eq, charLe_iff, h1, h2] at h
  omega

theorem dig_toNat {c : Char} (h : isDig c = true) :
    48 ≤ c.toNat ∧ c.toNat ≤ 57 := by
  have h1 : '0'.toNat = 48 := rfl
  have h2 : '9'.toNat = 57 := rfl
  simp only [isDig, Bool.and_eq_true, decide_eq_true_eq, charLe_iff, h1, h2] at h
  omega

theorem up_of_toNat {c : Char} (h1 : 65 ≤ c.toNat) (h2 : c.toNat ≤ 90) :
    isUp c = true := by
  have e1 : 'A'.toNat = 65 := rfl
  have e2 : 'Z'.toNat = 90 := rfl
  simp only [isUp, Bool.and_eq_true, decide_eq_true_eq, charLe_iff, e1, e2]
  omega

theorem lo_not_up {c : Char} (h : isLo c = true) : isUp c = false := by
  have := lo_toNat h
  by_contra hb
  have := up_toNat (by simpa using hb)
  omega

theorem dig_not_up {c : Char} (h : isDig c = true) : isUp c = false := by
  have := dig_toNat h
  by_contra hb
  have := up_toNat (by simpa using hb)
  omega

theorem loDig_not_up {c : Char} (h : isLoDig c = true) : isUp c = false := by
  simp only [isLoDig, Bool.or_eq_true] at h
  rcases h with h' | h'
  · exact lo_not_up h'
  · exact dig_not_up h'

theorem up_not_loDig {c : Char} (h : isUp c = true) : isLoDig c = false := by
  by_contra hb
  have := loDig_not_up (c := c) (by simpa using hb)
  simp [this] at h

theorem lo_loDig {c : Char} (h : isLo c = true) : isLoDig c = true := by
  simp [isLoDig, h]

theorem toNat_ne_nl {c : Char} (h : c.toNat ≠ 10) : c ≠ '\n' := by
  intro he; subst he; exact h rfl

theorem lo_ne_nl {c : Char} (h : isLo c = true) : c ≠ '\n' := by
  have := lo_toNat h; exact toNat_ne_nl (by omega)

theorem up_ne_nl {c : Char} (h : isUp c = true) : c ≠ '\n' := by
  have := up_toNat h; exact toNat_ne_nl (by omega)

theorem us_not_up : isUp '_' = false := by decide

theorem us_not_loDig : isLoDig '_' = false := by decide

/-! ### List walking lemmas -/

theorem lastD_irrel {α : Type} (w : List α) (h : w ≠ []) (d d' : α) :
    lastD w d = lastD w d' := by
  induction w with
  | nil => exact absurd rfl h
  | cons a w' ih =>
    cases w' with
    | nil => rfl
    | cons b w'' => simp only [lastD]; exact ih (by simp)

theorem dropLast_append_lastD {α : Type} (w : List α) (h : w ≠ []) (d : α) :
    w.dropLast ++ [lastD w d] = w := by
  induction w with
  | nil => exact absurd rfl h
  | cons a w' ih =>
    cases w' with
    | nil => simp [lastD]
    | cons b w'' =>
      simp only [List.dropLast_cons₂, lastD, List.cons_append]
      rw [ih (by simp)]

theorem dropLast_lastD_cons {α : Type} (w : List α) (h : w ≠ []) (d : α)
    (X : List α) : w.dropLast ++ (lastD w d :: X) = w ++ X := by
  have h1 : w.dropLast ++ (lastD w d :: X) = (w.dropLast ++ [lastD w d]) ++ X := by
    simp
  rw [h1, dropLast_append_lastD w h d]

theorem lastD_mem {α : Type} (w : List α) (h : w ≠ []) (d : α) :
    lastD w d ∈ w := by
  induction w with
  | nil => exact absurd rfl h
  | cons a w' ih =>
    cases w' with
    | nil => simp [lastD]
    | cons b w'' =>
      simp only [lastD]
      exact List.mem_cons_of_mem _ (ih (by simp))

/-- Walking `sub2` over a nonempty run of lowercase letters: no pair inside
the run matches, and the run's last letter is the candidate predecessor for
whatever follows. -/
theorem sub2_lo_append (w t : List Char) (hw : w ≠ [])
    (hlo : ∀ x ∈ w, isLo x = true) (d : Char) :
    sub2 (w ++ t) = w.dropLast ++ sub2 (lastD w d :: t) := by
  induction w with
  | nil => exact absurd rfl hw
  | cons a w' ih =>
    cases w' with
    | nil => simp [lastD]
    | cons b w'' =>
      have hb : isLo b := hlo b (by simp)
      have hstep : sub2 (a :: b :: (w'' ++ t)) = a :: sub2 (b :: (w'' ++ t)) := by
        simp only [sub2]
        rw [if_neg]
        rintro ⟨-, hub⟩
        rw [lo_not_up hb] at hub
        exact Bool.false_ne_true hub
      simp only [List.cons_append] at hstep ⊢
      rw [hstep]
      have hih := ih (by simp) (fun x hx => hlo x (List.mem_cons_of_mem _ hx))
      simp only [List.cons_append] at hih
      rw [hih]
      simp [List.dropLast_cons₂, lastD]

/-- Walking `camelBounds` over a run of lowercase letters: a lowercase
character is never a boundary. -/
theorem camelBounds_lo_append (w : List Char) (r : List Char)
    (hlo : ∀ x ∈ w, isLo x = true) :
    ∀ p, camelBounds p (w ++ r) = w ++ camelBounds (lastD w p) r := by
  induction w with
  | nil => intro p; simp [lastD]
  | cons a w' ih =>
    intro p
    have ha : isLo a := hlo a (by simp)
    simp only [List.cons_append, camelBounds, List.append_eq]
    rw [if_neg]
    · rw [ih (fun x hx => hlo x (List.mem_cons_of_mem _ hx)) a]
      cases w' with
      | nil => simp [lastD]
      | cons b w'' =>
        simp only [lastD]
        rw [lastD_irrel (b :: w'') (by simp) a p]
    · intro hb
      simp only [bnd, Bool.and_eq_true] at hb
      rw [lo_not_up ha] at hb
      exact Bool.false_ne_true hb.1

/-! ### Equivalence of the two substitution passes with boundary insertion -/

theorem sub1_cons_exists (c : Char) (ls : List Char) :
    ∃ Y, sub1 (c :: ls) = c :: Y := by
  cases ls with
  | nil => exact ⟨[], by simp [sub1]⟩
  | cons u r2 =>
    by_cases hm : c ≠ '\n' ∧ isUp u = true ∧ headLo r2 = true
    · exact ⟨_, by simp only [sub1]; rw [if_pos hm]⟩
    · exact ⟨_, by simp only [sub1]; rw [if_neg hm]⟩

/-- Walking `sub2` from an underscore that precedes a matched capitalized
word: neither the underscore nor any character of the word forms a
`([a-z0-9])([A-Z])` pair, so the scan passes through to the word's last
letter. -/
theorem sub2_chain (u : Char) (w t : List Char) (hwne : w ≠ [])
    (hwlo : ∀ x ∈ w, isLo x = true) :
    sub2 ('_' :: u :: (w ++ t)) = '_' :: u :: (w.dropLast ++ sub2 (lastD w u :: t)) := by
  have h2 : sub2 ('_' :: u :: (w ++ t)) = '_' :: sub2 (u :: (w ++ t)) := by
    simp only [sub2]
    rw [if_neg]
    rintro ⟨hus, -⟩
    rw [us_not_loDig] at hus
    exact Bool.false_ne_true hus
  rw [h2]
  cases w with
  | nil => exact absurd rfl hwne
  | cons w0 w1 =>
    have hw0 : isLo w0 = true := hwlo w0 (by simp)
    have h3 : sub2 (u :: w0 :: (w1 ++ t)) = u :: sub2 ((w0 :: w1) ++ t) := by
      simp only [sub2, List.cons_append]
      rw [if_neg]
      rintro ⟨-, hup⟩
      rw [lo_not_up hw0] at hup
      exact Bool.false_ne_true hup
    simp only [List.cons_append] at h3 ⊢
    rw [h3]
    have := sub2_lo_append (w0 :: w1) t (by simp) hwlo u
    simp only [List.cons_append] at this
    rw [this]

/-- Main equivalence: composing the two substitution passes of
`to_snake_case` inserts an underscore exactly at the boundaries described by
the specification.  The second component carries the scan state: `p` is the
character preceding the current suffix, and is either a lowercase letter
(the tail of a matched word) or a character at which the first pass just
failed to match. -/
theorem sub21_main : ∀ n : Nat, ∀ l : List Char, l.length ≤ n →
    (sub2 (sub1 l) = specTop l) ∧
    (∀ p : Char, (isLo p = true ∨ noM p l) →
      sub2 (p :: sub1 l) = p :: camelBounds p l) := by
  intro n
  induction n with
  | zero =>
    intro l hl
    have hnil : l = [] := List.length_eq_zero.mp (Nat.le_zero.mp hl)
    subst hnil
    exact ⟨by simp [sub1, sub2, specTop], fun p _ => by simp [sub1, sub2, camelBounds]⟩
  | succ n ih =>
    intro l hl
    have part1 : sub2 (sub1 l) = specTop l := by
      match l with
      | [] => simp [sub1, sub2, specTop]
      | [c] => simp [sub1, sub2, specTop, camelBounds]
      | c :: u :: r2 =>
        by_cases hm : c ≠ '\n' ∧ isUp u = true ∧ headLo r2 = true
        · -- the first pass matches at the head
          obtain ⟨hc, hu, hh⟩ := hm
          have hwne : r2.takeWhile isLo ≠ [] := by
            cases r2 with
            | nil => simp [headLo] at hh
            | cons d r2' =>
              simp only [headLo] at hh
              rw [List.takeWhile_cons_of_pos hh]
              simp
          have hwlo : ∀ x ∈ r2.takeWhile isLo, isLo x = true :=
            fun x hx => List.mem_takeWhile_imp hx
          have hs1 : sub1 (c :: u :: r2) =
              c :: '_' :: u :: (r2.takeWhile isLo ++ sub1 (r2.dropWhile isLo)) := by
            simp only [sub1]
            rw [if_pos ⟨hc, hu, hh⟩]
          rw [hs1]
          have h1 : sub2 (c :: '_' :: u :: (r2.takeWhile isLo ++ sub1 (r2.dropWhile isLo))) =
              c :: sub2 ('_' :: u :: (r2.takeWhile isLo ++ sub1 (r2.dropWhile isLo))) := by
            simp only [sub2]
            rw [if_neg]
            rintro ⟨-, hus⟩
            rw [us_not_up] at hus
            exact Bool.false_ne_true hus
          rw [h1, sub2_chain u _ _ hwne hwlo]
          have hlast : isLo (lastD (r2.takeWhile isLo) u) = true :=
            hwlo _ (lastD_mem _ hwne u)
          have hr3 : (r2.dropWhile isLo).length ≤ n := by
            have h := (List.dropWhile_suffix (l := r2) isLo).sublist.length_le
            simp only [List.length_cons] at hl
            omega
          rw [(ih (r2.dropWhile isLo) hr3).2 _ (Or.inl hlast)]
          rw [dropLast_lastD_cons (r2.takeWhile isLo) hwne u]
          -- now the spec side
          have hspec : specTop (c :: u :: r2) =
              c :: '_' :: u :: (r2.takeWhile isLo ++ camelBounds (lastD (r2.takeWhile isLo) u) (r2.dropWhile isLo)) := by
            simp only [specTop, camelBounds]
            rw [if_pos]
            · have := camelBounds_lo_append (r2.takeWhile isLo) (r2.dropWhile isLo) hwlo u
              rw [List.takeWhile_append_dropWhile] at this
              rw [this]
            · simp only [bnd, hu, Bool.true_and, Bool.or_eq_true, Bool.and_eq_true,
                decide_eq_true_eq]
              exact Or.inr ⟨hc, hh⟩
          rw [hspec]
        · -- the first pass fails at the head
          have hs1 : sub1 (c :: u :: r2) = c :: sub1 (u :: r2) := by
            simp only [sub1]
            rw [if_neg hm]
          rw [hs1]
          have hlen : (u :: r2).length ≤ n := by
            simp only [List.length_cons] at hl ⊢
            omega
          rw [(ih (u :: r2) hlen).2 c (Or.inr hm)]
          rfl
    refine ⟨part1, ?_⟩
    intro p hp
    match l with
    | [] => simp [sub1, sub2, camelBounds]
    | c :: ls =>
      by_cases hpair : isLoDig p = true ∧ isUp c = true
      · -- the pair (p, c) matches in the second pass
        match ls with
        | [] =>
          have : sub2 (p :: sub1 [c]) = [p, '_', c] := by
            simp only [sub1, sub2]
            rw [if_pos hpair]
          rw [this]
          simp only [camelBounds, bnd, headLo, hpair.1, hpair.2]
          simp
        | u :: r2 =>
          by_cases hm : c ≠ '\n' ∧ isUp u = true ∧ headLo r2 = true
          · -- first pass also matched at the head of l
            obtain ⟨hc, hu, hh⟩ := hm
            have hwne : r2.takeWhile isLo ≠ [] := by
              cases r2 with
              | nil => simp [headLo] at hh
              | cons d r2' =>
                simp only [headLo] at hh
                rw [List.takeWhile_cons_of_pos hh]
                simp
            have hwlo : ∀ x ∈ r2.takeWhile isLo, isLo x = true :=
              fun x hx => List.mem_takeWhile_imp hx
            have hs1 : sub1 (c :: u :: r2) =
                c :: '_' :: u :: (r2.takeWhile isLo ++ sub1 (r2.dropWhile isLo)) := by
              simp only [sub1]
              rw [if_pos ⟨hc, hu, hh⟩]
            rw [hs1]
            have h1 : sub2 (p :: c :: '_' :: u :: (r2.takeWhile isLo ++ sub1 (r2.dropWhile isLo))) =
                p :: '_' :: c :: sub2 ('_' :: u :: (r2.takeWhile isLo ++ sub1 (r2.dropWhile isLo))) := by
              simp only [sub2]
              rw [if_pos hpair]
            rw [h1, sub2_chain u _ _ hwne hwlo]
            have hlast : isLo (lastD (r2.takeWhile isLo) u) = true :=
              hwlo _ (lastD_mem _ hwne u)
            have hr3 : (r2.dropWhile isLo).length ≤ n := by
              have h := (List.dropWhile_suffix (l := r2) isLo).sublist.length_le
              simp only [List.length_cons] at hl
              omega
            rw [(ih (r2.dropWhile isLo) hr3).2 _ (Or.inl hlast)]
            rw [dropLast_lastD_cons (r2.takeWhile isLo) hwne u]
            have hspec : camelBounds p (c :: u :: r2) =
                '_' :: c :: '_' :: u :: (r2.takeWhile isLo ++ camelBounds (lastD (r2.takeWhile isLo) u) (r2.dropWhile isLo)) := by
              simp only [camelBounds]
              rw [if_pos, if_pos]
              · have := camelBounds_lo_append (r2.takeWhile isLo) (r2.dropWhile isLo) hwlo u
                rw [List.takeWhile_append_dropWhile] at this
                rw [this]
              · simp only [bnd, hu, Bool.true_and, Bool.or_eq_true, Bool.and_eq_true,
                  decide_eq_true_eq]
                exact Or.inr ⟨hc, hh⟩
              · simp only [bnd, hpair.2, Bool.true_and, Bool.or_eq_true, Bool.and_eq_true]
                exact Or.inl hpair.1
            rw [hspec]
          · -- first pass failed at the head of l
            have hs1 : sub1 (c :: u :: r2) = c :: sub1 (u :: r2) := by
              simp only [sub1]
              rw [if_neg hm]
            rw [hs1]
            have h1 : sub2 (p :: c :: sub1 (u :: r2)) =
                p :: '_' :: c :: sub2 (sub1 (u :: r2)) := by
              simp only [sub2]
              rw [if_pos hpair]
            rw [h1]
            have hlen : (u :: r2).length ≤ n := by
              simp only [List.length_cons] at hl ⊢
              omega
            rw [(ih (u :: r2) hlen).1]
            have hbnd2 : bnd c u r2 = false := by
              simp only [bnd, up_not_loDig hpair.2, Bool.false_or]
              cases hud : isUp u with
              | false => simp
              | true =>
                cases hhl : headLo r2 with
                | false => simp
                | true => exact absurd ⟨up_ne_nl hpair.2, hud, hhl⟩ hm
            have hspec : camelBounds p (c :: u :: r2) =
                '_' :: c :: specTop (u :: r2) := by
              simp only [camelBounds, specTop]
              rw [if_pos, if_neg]
              · rw [hbnd2]
                simp
              · simp only [bnd, hpair.2, Bool.true_and, Bool.or_eq_true, Bool.and_eq_true]
                exact Or.inl hpair.1
            rw [hspec]
      · -- the pair (p, c) does not match in the second pass
        obtain ⟨Y, hY⟩ := sub1_cons_exists c ls
        have h1 : sub2 (p :: sub1 (c :: ls)) = p :: sub2 (sub1 (c :: ls)) := by
          rw [hY]
          simp only [sub2]
          rw [if_neg hpair]
        rw [h1, part1]
        have hbnd : bnd p c ls = false := by
          cases hud : isUp c with
          | false => simp [bnd, hud]
          | true =>
            have hnd : isLoDig p = false := by
              cases hpd : isLoDig p with
              | false => rfl
              | true => exact absurd ⟨hpd, hud⟩ hpair
            simp only [bnd, hud, hnd, Bool.true_and, Bool.false_or]
            cases hls : headLo ls with
            | false => simp
            | true =>
              rcases hp with hp | hp
              · rw [lo_loDig hp] at hnd
                exact absurd hnd (by simp)
              · cases hpn : decide (p ≠ '\n') with
                | false => simp
                | true =>
                  exfalso
                  exact hp ⟨of_decide_eq_true hpn, hud, hls⟩
        simp only [specTop, camelBounds]
        rw [hbnd]
        simp

/-- The structural form of the first pass agrees with the direct form: with
the flag down it is the plain scan, with the flag up it first copies the
maximal lowercase run and then scans the remainder. -/
theorem sub1A_eq : ∀ n : Nat, ∀ l : List Char, l.length ≤ n →
    sub1A false l = sub1 l ∧
    sub1A true l = l.takeWhile isLo ++ sub1 (l.dropWhile isLo) := by
  intro n
  induction n with
  | zero =>
    intro l hl
    have hnil : l = [] := List.length_eq_zero.mp (Nat.le_zero.mp hl)
    subst hnil
    exact ⟨by simp [sub1A, sub1], by simp [sub1A, sub1]⟩
  | succ n ih =>
    intro l hl
    cases l with
    | nil => exact ⟨by simp [sub1A, sub1], by simp [sub1A, sub1]⟩
    | cons x xs =>
      have hxs : xs.length ≤ n := by
        simp only [List.length_cons] at hl; omega
      have hblock : sub1A false (x :: xs) = sub1 (x :: xs) := by
        cases xs with
        | nil => simp [sub1A, sub1]
        | cons u rest =>
          have hrest : rest.length ≤ n := by
            simp only [List.length_cons] at hl; omega
          by_cases hm : x ≠ '\n' ∧ isUp u = true ∧ headLo rest = true
          · simp only [sub1A, sub1]
            rw [if_pos hm, if_pos hm, (ih rest hrest).2]
          · simp only [sub1A, sub1]
            rw [if_neg hm, if_neg hm, (ih (u :: rest) hxs).1]
      refine ⟨hblock, ?_⟩
      by_cases hx : isLo x = true
      · have h1 : sub1A true (x :: xs) = x :: sub1A true xs := by
          rw [sub1A.eq_def]
          simp only [hx, if_true]
        rw [h1, (ih xs hxs).2,
          List.takeWhile_cons_of_pos hx, List.dropWhile_cons_of_pos hx]
        simp
      · have h1 : sub1A true (x :: xs) = sub1A false (x :: xs) := by
          cases xs with
          | nil => simp [sub1A, hx]
          | cons u rest =>
            simp only [sub1A]
            rw [if_neg (by simp [hx])]
        rw [h1, hblock,
          List.takeWhile_cons_of_neg (by simp [hx]),
          List.dropWhile_cons_of_neg (by simp [hx])]
        simp

/-- Headline form of the equivalence: `to_snake_case` computes exactly the
specification's boundary insertion followed by lower-casing. -/
theorem to_snake_case_eq_snakeSpec (l : List Char) :
    to_snake_case l = snakeSpec l := by
  unfold to_snake_case snakeSpec
  rw [(sub1A_eq l.length l le_rfl).1, (sub21_main l.length l le_rfl).1]

/-! ### Lower-casing facts and idempotence -/

theorem toNat_ofNat_valid {n : Nat} (h : n < 55296) :
    (Char.ofNat n).toNat = n := by
  have hv : n.isValidChar := Or.inl h
  unfold Char.ofNat
  rw [dif_pos hv]
  rfl

theorem loCh_not_up (c : Char) : isUp (loCh c) = false := by
  unfold loCh
  by_cases h : isUp c = true
  · rw [if_pos h]
    have hc := up_toNat h
    have ht : (Char.ofNat (c.toNat + 32)).toNat = c.toNat + 32 :=
      toNat_ofNat_valid (by omega)
    cases hb : isUp (Char.ofNat (c.toNat + 32)) with
    | false => rfl
    | true =>
      have := up_toNat hb
      omega
  · rw [if_neg h]
    exact Bool.not_eq_true _ ▸ Bool.of_not_eq_true h

theorem loCh_eq_self {c : Char} (h : isUp c = false) : loCh c = c := by
  simp [loCh, h]

theorem up_upCh {c : Char} (h : isLo c = true) : isUp (upCh c) = true := by
  unfold upCh
  rw [if_pos h]
  have hc := lo_toNat h
  have ht : (Char.ofNat (c.toNat - 32)).toNat = c.toNat - 32 :=
    toNat_ofNat_valid (by omega)
  exact up_of_toNat (by omega) (by omega)

theorem loCh_upCh {c : Char} (h : isLo c = true) : loCh (upCh c) = c := by
  have hup : isUp (upCh c) = true := up_upCh h
  have hc := lo_toNat h
  have ht : (upCh c).toNat = c.toNat - 32 := by
    unfold upCh
    rw [if_pos h]
    exact toNat_ofNat_valid (by omega)
  unfold loCh
  rw [if_pos hup]
  have : (upCh c).toNat + 32 = c.toNat := by omega
  rw [this, Char.ofNat_toNat]

theorem map_loCh_no_up (l : List Char) : ∀ c ∈ l.map loCh, isUp c = false := by
  intro c hc
  obtain ⟨a, -, rfl⟩ := List.mem_map.mp hc
  exact loCh_not_up a

theorem map_loCh_id {l : List Char} (h : ∀ c ∈ l, isUp c = false) :
    l.map loCh = l := by
  induction l with
  | nil => rfl
  | cons a l' ih =>
    rw [List.map_cons, loCh_eq_self (h a (by simp)), ih (fun c hc => h c (by simp [hc]))]

/-- The first pass is the identity on text without uppercase letters: its
match requires `[A-Z]`. -/
theorem sub1A_id_no_up (b : Bool) (l : List Char)
    (h : ∀ c ∈ l, isUp c = false) : sub1A b l = l := by
  induction l generalizing b with
  | nil => cases b <;> simp [sub1A]
  | cons x xs ih =>
    have hxs : ∀ c ∈ xs, isUp c = false := fun c hc => h c (by simp [hc])
    have hblock : sub1A false (x :: xs) = x :: xs := by
      cases xs with
      | nil => simp [sub1A]
      | cons u rest =>
        have hu : isUp u = false := h u (by simp)
        simp only [sub1A]
        rw [if_neg (by rintro ⟨-, hu2, -⟩; rw [hu] at hu2; exact Bool.false_ne_true hu2)]
        rw [ih false hxs]
    cases b with
    | false => exact hblock
    | true =>
      by_cases hx : isLo x = true
      · have h1 : sub1A true (x :: xs) = x :: sub1A true xs := by
          rw [sub1A.eq_def]
          simp only [hx, if_true]
        rw [h1, ih true hxs]
      · have h1 : sub1A true (x :: xs) = sub1A false (x :: xs) := by
          cases xs with
          | nil => simp [sub1A, hx]
          | cons u rest =>
            simp only [sub1A]
            rw [if_neg (by simp [hx])]
        rw [h1, hblock]

/-- The second pass is the identity on text without uppercase letters. -/
theorem sub2_id_no_up (l : List Char) (h : ∀ c ∈ l, isUp c = false) :
    sub2 l = l := by
  induction l with
  | nil => rfl
  | cons a xs ih =>
    have hxs : ∀ c ∈ xs, isUp c = false := fun c hc => h c (by simp [hc])
    cases xs with
    | nil => simp [sub2]
    | cons b' rest =>
      have hb : isUp b' = false := h b' (by simp)
      simp only [sub2]
      rw [if_neg (by rintro ⟨-, hb2⟩; rw [hb] at hb2; exact Bool.false_ne_true hb2)]
      rw [ih hxs]

theorem to_snake_case_no_up (l : List Char) :
    ∀ c ∈ to_snake_case l, isUp c = false := by
  intro c hc
  exact map_loCh_no_up _ c hc

theorem to_snake_case_idem (l : List Char) :
    to_snake_case (to_snake_case l) = to_snake_case l := by
  have hs : ∀ c ∈ to_snake_case l, isUp c = false := to_snake_case_no_up l
  show (sub2 (sub1A false (to_snake_case l))).map loCh = to_snake_case l
  rw [sub1A_id_no_up false _ hs, sub2_id_no_up _ hs, map_loCh_id hs]

/-! ### Set difference and the in-sync report -/

theorem mem_setDiff (a b : List (List Char)) (x : List Char) :
    x ∈ setDiff a b ↔ x ∈ a ∧ x ∉ b := by
  simp [setDiff, List.mem_filter]

theorem setDiff_nil_of_subset {a b : List (List Char)} (h : a ⊆ b) :
    setDiff a b = [] := by
  simp only [setDiff, List.filter_eq_nil_iff, decide_eq_true_eq]
  intro x hx
  simp [h hx]

/-! ### Sorting facts -/

theorem charEq_of_not_lt {a b : Char} (h1 : ¬ a < b) (h2 : ¬ b < a) : a = b :=
  le_antisymm (not_lt.mp h2) (not_lt.mp h1)

theorem lexLt_irrefl (l : List Char) : lexLt l l = false := by
  induction l with
  | nil => rfl
  | cons a xs ih =>
    simp only [lexLt]
    rw [if_neg (lt_irrefl a), if_neg (lt_irrefl a)]
    exact ih

theorem lexLt_asymm : ∀ {x y : List Char}, lexLt x y = true → lexLt y x = false
  | [], [], h => by simp [lexLt] at h
  | [], _ :: _, _ => rfl
  | _ :: _, [], h => by simp [lexLt] at h
  | a :: xs, b :: ys, h => by
    simp only [lexLt] at h ⊢
    by_cases hab : a < b
    · rw [if_neg (lt_asymm hab), if_pos hab]
    · rw [if_neg hab] at h
      by_cases hba : b < a
      · rw [if_pos hba] at h
        exact absurd h (by simp)
      · rw [if_neg hba] at h
        rw [if_neg hba, if_neg hab]
        exact lexLt_asymm h

theorem lexLt_trans : ∀ {x y z : List Char},
    lexLt x y = true → lexLt y z = true → lexLt x z = true
  | [], _, _ :: _, _, _ => rfl
  | [], y, [], _, h2 => by
    cases y <;> simp [lexLt] at h2
  | _ :: _, [], _, h1, _ => by simp [lexLt] at h1
  | _ :: _, _ :: _, [], _, h2 => by simp [lexLt] at h2
  | a :: xs, b :: ys, c :: zs, h1, h2 => by
    simp only [lexLt] at h1 h2 ⊢
    by_cases hab : a < b
    · by_cases hbc : b < c
      · rw [if_pos (lt_trans hab hbc)]
      · rw [if_neg hbc] at h2
        by_cases hcb : c < b
        · rw [if_pos hcb] at h2
          exact absurd h2 (by simp)
        · have : b = c := charEq_of_not_lt hbc hcb
          subst this
          rw [if_pos hab]
    · rw [if_neg hab] at h1
      by_cases hba : b < a
      · rw [if_pos hba] at h1
        exact absurd h1 (by simp)
      · have : a = b := charEq_of_not_lt hab hba
        subst this
        rw [if_neg hab] at h1
        by_cases hac : a < c
        · rw [if_pos hac]
        · rw [if_neg hac] at h2 ⊢
          by_cases hca : c < a
          · rw [if_pos hca] at h2
            exact absurd h2 (by simp)
          · rw [if_neg hca] at h2 ⊢
            exact lexLt_trans h1 h2

theorem lexLt_conn : ∀ {x y : List Char},
    lexLt x y = false → lexLt y x = false → x = y
  | [], [], _, _ => rfl
  | [], _ :: _, h1, _ => by simp [lexLt] at h1
  | _ :: _, [], _, h2 => by simp [lexLt] at h2
  | a :: xs, b :: ys, h1, h2 => by
    simp only [lexLt] at h1 h2
    by_cases hab : a < b
    · rw [if_pos hab] at h1
      exact absurd h1 (by simp)
    · by_cases hba : b < a
      · rw [if_pos hba] at h2
        exact absurd h2 (by simp)
      · rw [if_neg hab, if_neg hba] at h1
        rw [if_neg hba, if_neg hab] at h2
        rw [charEq_of_not_lt hab hba, lexLt_conn h1 h2]

/-- Transitivity of the non-strict order `lexLt · · = false`. -/
theorem lexLe_trans {x y z : List Char}
    (h1 : lexLt y x = false) (h2 : lexLt z y = false) : lexLt z x = false := by
  cases h : lexLt z x with
  | false => rfl
  | true =>
    exfalso
    cases hyz : lexLt y z with
    | true =>
      have := lexLt_trans hyz h
      rw [this] at h1
      exact Bool.false_ne_true h1.symm
    | false =>
      have hzy : z = y := lexLt_conn h2 hyz
      subst hzy
      rw [h] at h1
      exact Bool.false_ne_true h1.symm

theorem mem_sIns (x a : List Char) : ∀ l, a ∈ sIns x l ↔ a = x ∨ a ∈ l := by
  intro l
  induction l with
  | nil => simp [sIns]
  | cons y ys ih =>
    simp only [sIns]
    by_cases h : lexLt y x = true
    · rw [if_pos h]
      simp only [List.mem_cons, ih]
      tauto
    · rw [if_neg h]
      exact List.mem_cons

theorem sIns_perm (x : List Char) : ∀ l, List.Perm (sIns x l) (x :: l) := by
  intro l
  induction l with
  | nil => simp [sIns]
  | cons y ys ih =>
    simp only [sIns]
    by_cases h : lexLt y x = true
    · rw [if_pos h]
      exact (ih.cons y).trans (List.Perm.swap x y ys)
    · rw [if_neg h]

theorem sortL_perm : ∀ l, List.Perm (sortL l) l := by
  intro l
  induction l with
  | nil => simp [sortL]
  | cons x xs ih =>
    simp only [sortL]
    exact (sIns_perm x (sortL xs)).trans (ih.cons x)

theorem sIns_sorted (x : List Char) : ∀ l,
    List.Sorted (fun a b : List Char => lexLt b a = false) l →
    List.Sorted (fun a b : List Char => lexLt b a = false) (sIns x l) := by
  intro l
  induction l with
  | nil => intro _; simp [sIns]
  | cons y ys ih =>
    intro h
    rw [List.sorted_cons] at h
    simp only [sIns]
    by_cases hyx : lexLt y x = true
    · rw [if_pos hyx]
      rw [List.sorted_cons]
      refine ⟨?_, ih h.2⟩
      intro b hb
      rcases (mem_sIns x b ys).mp hb with rfl | hb'
      · exact lexLt_asymm hyx
      · exact h.1 b hb'
    · rw [if_neg hyx]
      rw [List.sorted_cons]
      have hyx' : lexLt y x = false := by simpa using hyx
      refine ⟨?_, List.sorted_cons.mpr h⟩
      intro b hb
      rcases List.mem_cons.mp hb with rfl | hb'
      · exact hyx'
      · exact lexLe_trans hyx' (h.1 b hb')

theorem sortL_sorted : ∀ l,
    List.Sorted (fun a b : List Char => lexLt b a = false) (sortL l) := by
  intro l
  induction l with
  | nil => simp [sortL]
  | cons x xs ih => exact sIns_sorted x (sortL xs) ih

/-- Sorting depends only on the multiset of elements. -/
theorem sortL_eq_of_perm {l l' : List (List Char)} (h : List.Perm l l') :
    sortL l = sortL l' := by
  haveI : IsAntisymm (List Char) (fun a b : List Char => lexLt b a = false) :=
    ⟨fun a b h1 h2 => lexLt_conn h2 h1⟩
  exact List.eq_of_perm_of_sorted
    ((sortL_perm l).trans (h.trans (sortL_perm l').symm))
    (sortL_sorted l) (sortL_sorted l')

theorem mem_sortL (l : List (List Char)) (x : List Char) :
    x ∈ sortL l ↔ x ∈ l :=
  (sortL_perm l).mem_iff

theorem perm_nil_iff {a b : List (List Char)} (h : List.Perm a b) :
    a = [] ↔ b = [] := by
  constructor
  · intro ha; subst ha; exact h.symm.eq_nil
  · intro hb; subst hb; exact h.eq_nil

/-- The report is invariant under reordering of the extracted sets and
under pointwise-equal membership of the declared/implemented sets. -/
theorem report_ext {R R' D D' I I' : List (List Char)}
    (hR : List.Perm R R')
    (hD : ∀ x, x ∈ D ↔ x ∈ D') (hI : ∀ x, x ∈ I ↔ x ∈ I') :
    report R D I = report R' D' I' := by
  have hDeq : setDiff R D = setDiff R D' :=
    List.filter_congr (fun x _ => by simp [hD x])
  have hIeq : setDiff R I = setDiff R I' :=
    List.filter_congr (fun x _ => by simp [hI x])
  have hDp : List.Perm (setDiff R D) (setDiff R' D') := by
    rw [hDeq]; exact hR.filter _
  have hIp : List.Perm (setDiff R I) (setDiff R' I') := by
    rw [hIeq]; exact hR.filter _
  have hDs : sortL (setDiff R D) = sortL (setDiff R' D') := sortL_eq_of_perm hDp
  have hIs : sortL (setDiff R I) = sortL (setDiff R' I') := sortL_eq_of_perm hIp
  have eD : setDiff R D = [] ↔ setDiff R' D' = [] := perm_nil_iff hDp
  have eI : setDiff R I = [] ↔ setDiff R' I' = [] := perm_nil_iff hIp
  have hDsec : declSection (setDiff R D) = declSection (setDiff R' D') := by
    unfold declSection; rw [hDs]
  have hIsec : implSection (setDiff R I) = implSection (setDiff R' I') := by
    unfold implSection; rw [hIs]
  unfold report
  simp only [hDsec, hIsec, eD, eI]

/-! ### Claim theorems -/

/-- C4: `to_snake_case` converts an identifier to snake_case by inserting an
underscore at exactly the boundaries the spec describes — (b) between a
lowercase letter or digit and a following uppercase character, and (a, read
with the acronym clause) before an uppercase character that begins a
capitalized word, so that for a run of capitals the boundary falls before
the run's last capital — and then lower-casing; in particular "HTTPServer"
maps to "http_server". -/
theorem C4_to_snake_case_follows_spec :
    (∀ l : List Char, to_snake_case l = snakeSpec l) ∧
    to_snake_case ("HTTPServer".toList) = ("http_server".toList) :=
  ⟨to_snake_case_eq_snakeSpec, by decide⟩

/-- C10: the output of `to_snake_case` never contains an uppercase
character, and `to_snake_case` is idempotent (both substitution rules need
an uppercase character to fire, and lower-casing leaves an
upper-free string unchanged). -/
theorem C10_to_snake_case_idempotent :
    (∀ l : List Char, ∀ c ∈ to_snake_case l, isUp c = false) ∧
    (∀ l : List Char, to_snake_case (to_snake_case l) = to_snake_case l) :=
  ⟨to_snake_case_no_up, to_snake_case_idem⟩

/-- Witness for C10 at a concrete input. -/
theorem C10_to_snake_case_idempotent_witness :
    isUp 'a' = false :=
  C10_to_snake_case_idempotent.1 ("aB".toList) 'a' (by decide)

/-- C1: the analysis computes plain set difference
(`missingDecl = R - D`, `missingImpl = R - I`), and when `R ⊆ D` and
`R ⊆ I` (both differences empty) the report is exactly the in-sync
message, with no stub output. -/
theorem C1_analyze_set_difference_and_sync :
    (∀ R D I : List (List Char),
      (∀ x, x ∈ (analyze R D I).1 ↔ x ∈ R ∧ x ∉ D) ∧
      (∀ x, x ∈ (analyze R D I).2 ↔ x ∈ R ∧ x ∉ I)) ∧
    (∀ R D I : List (List Char), R ⊆ D → R ⊆ I → report R D I = syncMsg) := by
  constructor
  · intro R D I
    exact ⟨fun x => mem_setDiff R D x, fun x => mem_setDiff R I x⟩
  · intro R D I hD hI
    unfold report
    rw [setDiff_nil_of_subset hD, setDiff_nil_of_subset hI]
    simp

/-- Witness for C1 at concrete inputs. -/
theorem C1_analyze_set_difference_and_sync_witness :
    report [("stat".toList)] [("stat".toList), ("expr".toList)] [("stat".toList)] = syncMsg :=
  C1_analyze_set_difference_and_sync.2 _ _ _ (by decide) (by decide)

/-- C2 counterexample: in the grammar text below the definition of `expr`
lies inside a block comment — the comment-respecting stripper `specStrip`
removes it, and extraction on the properly stripped text yields only `stat`
— yet the code's extraction also picks up `expr`.  The cause: the code
removes line comments first, so the `//` inside the block comment deletes
the block's closing marker and the block comment is never stripped. -/
theorem C2_comment_immunity_cex :
    ("expr".toList) ∈ (parse_grammar ("/*\nexpr: foo;\n// */\nstat: bar;".toList)).2 ∧
    rulesOf (specStrip ("/*\nexpr: foo;\n// */\nstat: bar;".toList)) = [("stat".toList)] ∧
    toksOf (specStrip ("/*\nexpr: foo;\n// */\nstat: bar;".toList)) = [] := by
  decide

/-- C2 amended: a definition inside a line comment is not extracted in the
claim's example — the text yields exactly tokens = {} and rules = {stat} —
but comment immunity does not hold for every grammar text: a block comment
whose body contains a line-comment marker before the closer loses its
closer to line-comment removal, and the commented-out definitions inside it
are extracted. -/
theorem C2_comment_immunity_amended :
    parse_grammar ("// expr: foo;\nstat: bar;".toList) = ([], [("stat".toList)]) := by
  decide

/-- C3 counterexample: on a grammar whose block comment never closes the
code does not behave as if the comment extended to the end of input: the
rule defined after the opener is still extracted (under the spec's reading,
certified by `specStrip`, the rule set would be empty). -/
theorem C3_unterminated_block_cex :
    ("stat".toList) ∈ (parse_grammar ("/* hi\nstat: bar;".toList)).2 ∧
    rulesOf (specStrip ("/* hi\nstat: bar;".toList)) = [] := by
  decide

/-- C3 amended: extraction is total (no failure path exists in the
embedding), but an unterminated block comment is simply left in place by
the block-comment substitution — the pattern requires a closer — so
definitions after the opener are still extracted. -/
theorem C3_unterminated_block_amended :
    stripBlock (stripLine ("/* hi\nstat: bar;".toList)) =
      stripLine ("/* hi\nstat: bar;".toList) ∧
    parse_grammar ("/* hi\nstat: bar;".toList) = ([], [("stat".toList)]) := by
  decide

set_option maxRecDepth 40000 in
/-- C6: the end-to-end scenario.  The grammar defines `exprStatement` and
`block`, the interface declares only `expr_statement`, the implementation
implements nothing.  The analysis yields `missingDecl = {block}` and
`missingImpl = {expr_statement, block}`, and the report consists of exactly
one declaration stub for `block` (type `Block`) and two implementation
stubs (types `Block` and `ExprStatement`, in sorted order). -/
theorem C6_end_to_end :
    (parse_grammar ("exprStatement: foo;\nblock: bar;".toList)).2 =
      [("expr_statement".toList), ("block".toList)] ∧
    declaredOf ("std::unique_ptr<ExprStatement> expr_statement();\n".toList) =
      [("expr_statement".toList)] ∧
    implementedOf ("".toList) = [] ∧
    analyze [("expr_statement".toList), ("block".toList)] [("expr_statement".toList)] [] =
      ([("block".toList)], [("expr_statement".toList), ("block".toList)]) ∧
    runPipeline ("exprStatement: foo;\nblock: bar;".toList)
        ("std::unique_ptr<ExprStatement> expr_statement();\n".toList) ("".toList) =
      ("---Analysis Complete---\n\nThe following are suggestions for what might be missing from your parser.\nPlease review them carefully before adding to your code.\n\n---Missing Method Declarations (for include/Parser.h)---\n    std::unique_ptr<Block> block();\n\n---Missing Method Implementations (for src/Parser.cpp)---\nstd::unique_ptr<Block> Parser::block() \x7b\n    // TODO: Implement parsing logic for block\n    return nullptr;\n\x7d\n\nstd::unique_ptr<ExprStatement> Parser::expr_statement() \x7b\n    // TODO: Implement parsing logic for expr_statement\n    return nullptr;\n\x7d\n\n".toList) := by
  decide

/-- C8: the report is a deterministic function of the three extracted sets
— two runs over equal sets (any iteration order of the duplicate-free set
representations) produce byte-identical report text — and the missing-item
lists are emitted in lexicographically sorted order. -/
theorem C8_report_deterministic_sorted :
    (∀ R R' D D' I I' : List (List Char),
      R.Nodup → R'.Nodup → (∀ x, x ∈ R ↔ x ∈ R') →
      (∀ x, x ∈ D ↔ x ∈ D') → (∀ x, x ∈ I ↔ x ∈ I') →
      report R D I = report R' D' I') ∧
    (∀ m : List (List Char),
      List.Sorted (fun a b : List Char => lexLt b a = false) (sortL m)) := by
  constructor
  · intro R R' D D' I I' hR hR' hRR hDD hII
    exact report_ext ((List.perm_ext_iff_of_nodup hR hR').mpr hRR) hDD hII
  · exact sortL_sorted

/-- Witness for C8: two permuted set representations yield the same
text. -/
theorem C8_report_deterministic_sorted_witness :
    report [("expr".toList), ("stat".toList)] [("stat".toList)] []
      = report [("stat".toList), ("expr".toList)] [("stat".toList)] [] :=
  C8_report_deterministic_sorted.1 _ _ _ _ _ _
    (by decide) (by decide)
    (by intro x; simp only [List.mem_cons, List.not_mem_nil]; tauto)
    (by intro x; exact Iff.rfl)
    (by intro x; exact Iff.rfl)

set_option maxRecDepth 40000 in
/-- C9 counterexample: the emitted declaration-stub line carries four
spaces of indentation, so it is not exactly the string
"std::unique_ptr<TypeName> rule_name();" the claim demands with nothing
else on the line; the concrete report shows the indented line. -/
theorem C9_decl_stub_cex :
    declStubLine ("block".toList) = ("    std::unique_ptr<Block> block();".toList) ∧
    declStubLine ("block".toList) ≠ ("std::unique_ptr<Block> block();".toList) ∧
    report [("block".toList)] [] [("block".toList)] =
      ("---Analysis Complete---\n\nThe following are suggestions for what might be missing from your parser.\nPlease review them carefully before adding to your code.\n\n---Missing Method Declarations (for include/Parser.h)---\n    std::unique_ptr<Block> block();\n\n".toList) := by
  decide

/-- C9 amended: every emitted declaration-stub line consists of exactly
four spaces of indentation followed by the owning-pointer marker, the
PascalCase type name, a space, the snake_case rule name, an empty parameter
list and a trailing semicolon — one line per missing declaration, the lines
in lexicographically sorted order. -/
theorem C9_decl_stub_format :
    (∀ mdecl : List (List Char),
      ∀ line ∈ (sortL mdecl).map (fun r => declStubLine r ++ ['\n']),
      ∃ r ∈ mdecl, line =
        ("    std::unique_ptr<".toList) ++ toPascalCase r ++ ("> ".toList)
          ++ r ++ ("();\n".toList)) ∧
    (∀ mdecl : List (List Char),
      List.Sorted (fun a b : List Char => lexLt b a = false) (sortL mdecl)) := by
  constructor
  · intro mdecl line hline
    obtain ⟨r, hr, rfl⟩ := List.mem_map.mp hline
    refine ⟨r, (mem_sortL mdecl r).mp hr, ?_⟩
    simp [declStubLine]
  · exact sortL_sorted

/-- Witness for C9 amended at a concrete missing set. -/
theorem C9_decl_stub_format_witness :
    ∃ r ∈ [("block".toList)], declStubLine ("block".toList) ++ ['\n'] =
      ("    std::unique_ptr<".toList) ++ toPascalCase r ++ ("> ".toList)
        ++ r ++ ("();\n".toList) :=
  C9_decl_stub_format.1 [("block".toList)] (declStubLine ("block".toList) ++ ['\n'])
    (by decide)

/-! ### The camelCase round trip (C5) -/

theorem lo_ne_us {c : Char} (h : isLo c = true) : c ≠ '_' := by
  have h2 := lo_toNat h
  intro he
  subst he
  simp at h2

/-- `splitU` on a lowercase chunk followed by an underscore: the chunk is
the first field. -/
theorem splitU_lo_append (w rest : List Char) (h : ∀ c ∈ w, isLo c = true) :
    splitU (w ++ '_' :: rest) = w :: splitU rest := by
  induction w with
  | nil => simp [splitU]
  | cons c w' ih =>
    have hc : isLo c = true := h c (by simp)
    have hcne : c ≠ '_' := lo_ne_us hc
    rw [List.cons_append, splitU.eq_def]
    split
    · rename_i heq
      exact absurd heq (by simp)
    · rename_i heq
      injection heq with h1 h2
      exact absurd h1 hcne
    · rename_i head tail hne heq
      injection heq with h1 h2
      subst h1
      rw [← h2, ih (fun x hx => h x (by simp [hx]))]

/-- `splitU` on a lowercase string: a single field. -/
theorem splitU_lo (w : List Char) (h : ∀ c ∈ w, isLo c = true) :
    splitU w = [w] := by
  induction w with
  | nil => rfl
  | cons c w' ih =>
    have hc : isLo c = true := h c (by simp)
    have hcne : c ≠ '_' := lo_ne_us hc
    rw [splitU.eq_def]
    split
    · rename_i heq
      exact absurd heq (by simp)
    · rename_i heq
      injection heq with h1 h2
      exact absurd h1 hcne
    · rename_i head tail hne heq
      injection heq with h1 h2
      subst h1
      rw [← h2, ih (fun x hx => h x (by simp [hx]))]

/-- Splitting a snake_case concatenation of lowercase words recovers the
words. -/
theorem splitU_words : ∀ (ws : List (List Char)) (w : List Char),
    (∀ c ∈ w, isLo c = true) → (∀ v ∈ ws, loWord v) →
    splitU (w ++ (ws.map (fun v => '_' :: v)).flatten) = w :: ws := by
  intro ws
  induction ws with
  | nil =>
    intro w hw _
    simp only [List.map_nil, List.flatten_nil, List.append_nil]
    exact splitU_lo w hw
  | cons v ws' ih =>
    intro w hw hws
    have hv : loWord v := hws v (by simp)
    have h1 : w ++ (List.map (fun v => '_' :: v) (v :: ws')).flatten =
        w ++ '_' :: (v ++ (List.map (fun v => '_' :: v) ws').flatten) := by
      simp
    rw [h1, splitU_lo_append w _ hw,
      ih v hv.2 (fun x hx => hws x (by simp [hx]))]

/-- Python capitalize of a nonempty all-lowercase word just raises its
first letter. -/
theorem capitalize_lo (v : List Char) (h : ∀ c ∈ v, isLo c = true) :
    capitalize v = upFirst v := by
  cases v with
  | nil => rfl
  | cons c vr =>
    simp only [capitalize, upFirst]
    rw [map_loCh_id (fun x hx => lo_not_up (h x (by simp [hx])))]

/-- The boundary walk over the capitalized words of a camelCase identifier:
each word start is a boundary, and nothing else is. -/
theorem camelBounds_words : ∀ (ws : List (List Char)) (p : Char),
    isLoDig p = true → (∀ v ∈ ws, loWord v) → noAdj ws →
    camelBounds p ((ws.map upFirst).flatten) =
      ((ws.map (fun v => '_' :: upFirst v)).flatten) := by
  intro ws
  induction ws with
  | nil => intro p _ _ _; rfl
  | cons v ws' ih =>
    intro p hp hws hadj
    obtain ⟨hvne, hvlo⟩ := hws v (by simp)
    obtain ⟨v0, vr, rfl⟩ : ∃ v0 vr, v = v0 :: vr := by
      cases v with
      | nil => exact absurd rfl hvne
      | cons a b => exact ⟨a, b, rfl⟩
    have hv0 : isLo v0 = true := hvlo v0 (by simp)
    have hvrlo : ∀ c ∈ vr, isLo c = true := fun c hc => hvlo c (by simp [hc])
    have h1 : (List.map upFirst ((v0 :: vr) :: ws')).flatten =
        upCh v0 :: (vr ++ (List.map upFirst ws').flatten) := by
      simp [upFirst]
    rw [h1]
    have hbnd : bnd p (upCh v0) (vr ++ (List.map upFirst ws').flatten) = true := by
      simp only [bnd, up_upCh hv0, hp, Bool.true_and, Bool.true_or]
    rw [camelBounds.eq_def]
    simp only []
    rw [if_pos hbnd]
    rw [camelBounds_lo_append vr _ hvrlo (upCh v0)]
    cases ws' with
    | nil =>
      simp [upFirst, camelBounds]
    | cons v' ws'' =>
      have hlen : 2 ≤ (v0 :: vr).length := hadj.1
      have hvrne : vr ≠ [] := by
        cases vr with
        | nil => simp at hlen
        | cons a b => simp
      have hlast : isLo (lastD vr (upCh v0)) = true :=
        hvrlo _ (lastD_mem vr hvrne (upCh v0))
      rw [ih (lastD vr (upCh v0)) (lo_loDig hlast)
        (fun x hx => hws x (by simp [hx])) hadj.2]
      simp [upFirst]

theorem map_loCh_upFirst (v : List Char) (h : ∀ c ∈ v, isLo c = true) :
    (upFirst v).map loCh = v := by
  cases v with
  | nil => rfl
  | cons c vr =>
    simp only [upFirst, List.map_cons]
    rw [loCh_upCh (h c (by simp)),
      map_loCh_id (fun x hx => lo_not_up (h x (by simp [hx])))]

theorem map_loCh_flatten_words (ws : List (List Char))
    (hws : ∀ v ∈ ws, loWord v) :
    ((ws.map (fun v => '_' :: upFirst v)).flatten).map loCh =
      (ws.map (fun v => '_' :: v)).flatten := by
  induction ws with
  | nil => rfl
  | cons v ws' ih =>
    simp only [List.map_cons, List.flatten_cons, List.map_append]
    rw [ih (fun x hx => hws x (by simp [hx]))]
    rw [loCh_eq_self us_not_up, map_loCh_upFirst v (hws v (by simp)).2]

/-- The snake_case form of a simple camelCase identifier: an underscore
before each word, everything lower-cased. -/
theorem to_snake_case_camelWords (w : List Char) (ws : List (List Char))
    (hw : loWord w) (hws : ∀ v ∈ ws, loWord v) (hadj : noAdj ws) :
    to_snake_case (camelWords w ws) =
      w ++ (ws.map (fun v => '_' :: v)).flatten := by
  rw [to_snake_case_eq_snakeSpec]
  unfold snakeSpec camelWords
  obtain ⟨w0, wr, rfl⟩ : ∃ w0 wr, w = w0 :: wr := by
    cases w with
    | nil => exact absurd rfl hw.1
    | cons a b => exact ⟨a, b, rfl⟩
  have hw0 : isLo w0 = true := hw.2 w0 (by simp)
  have hwrlo : ∀ c ∈ wr, isLo c = true := fun c hc => hw.2 c (by simp [hc])
  have hlast : isLo (lastD wr w0) = true := by
    cases wr with
    | nil => exact hw0
    | cons a b => exact hwrlo _ (lastD_mem (a :: b) (by simp) w0)
  have h1 : specTop (w0 :: wr ++ (List.map upFirst ws).flatten) =
      w0 :: wr ++ ((ws.map (fun v => '_' :: upFirst v)).flatten) := by
    simp only [List.cons_append, specTop]
    rw [camelBounds_lo_append wr _ hwrlo w0,
      camelBounds_words ws (lastD wr w0) (lo_loDig hlast) hws hadj]
  rw [h1]
  -- lower-casing
  have hmapw : (w0 :: wr).map loCh = w0 :: wr :=
    map_loCh_id (fun c hc => lo_not_up (by
      rcases List.mem_cons.mp hc with rfl | hc'
      · exact hw0
      · exact hwrlo c hc'))
  have hmapws : ((ws.map (fun v => '_' :: upFirst v)).flatten).map loCh =
      (ws.map (fun v => '_' :: v)).flatten :=
    map_loCh_flatten_words ws hws
  calc ((w0 :: wr) ++ ((ws.map (fun v => '_' :: upFirst v)).flatten)).map loCh
      = ((w0 :: wr).map loCh) ++ (((ws.map (fun v => '_' :: upFirst v)).flatten).map loCh) := by
        simp
    _ = (w0 :: wr) ++ (ws.map (fun v => '_' :: v)).flatten := by rw [hmapw, hmapws]

/-- The full round trip on simple camelCase identifiers. -/
theorem pascal_snake_round_trip (w : List Char) (ws : List (List Char))
    (hw : loWord w) (hws : ∀ v ∈ ws, loWord v) (hadj : noAdj ws) :
    toPascalCase (to_snake_case (camelWords w ws)) = upFirst (camelWords w ws) := by
  rw [to_snake_case_camelWords w ws hw hws hadj]
  unfold toPascalCase
  rw [splitU_words ws w hw.2 hws]
  have hcapws : (List.map capitalize ws) = List.map upFirst ws :=
    List.map_congr_left (fun v hv => capitalize_lo v (hws v hv).2)
  simp only [List.map_cons, List.flatten_cons, hcapws]
  rw [capitalize_lo w hw.2]
  obtain ⟨w0, wr, rfl⟩ : ∃ w0 wr, w = w0 :: wr := by
    cases w with
    | nil => exact absurd rfl hw.1
    | cons a b => exact ⟨a, b, rfl⟩
  simp [upFirst, camelWords]

/-- C5 counterexample: `toPascalCase` lower-cases the remainder of each
underscore-separated segment (Python `capitalize`), so applying it directly
to a camelCase identifier differs from applying it to the snake_case form:
for x = "parseExpr" the left side is "ParseExpr" and the right side is
"Parseexpr". -/
theorem C5_round_trip_cex :
    toPascalCase (to_snake_case ("parseExpr".toList)) = ("ParseExpr".toList) ∧
    toPascalCase ("parseExpr".toList) = ("Parseexpr".toList) ∧
    toPascalCase (to_snake_case ("parseExpr".toList)) ≠
      toPascalCase ("parseExpr".toList) := by
  decide

/-- C5 amended: for an identifier composed of simple lowercase words in
camelCase (no embedded acronyms: every capitalized word followed by another
word has at least one lowercase letter after its capital),
`toPascalCase(toSnakeCase(x))` equals `x` with its first letter capitalized
— e.g. "parseExpr" maps via "parse_expr" to "ParseExpr".  (Applying
`toPascalCase` directly to the camelCase `x` instead lower-cases the
interior capitals, so the claim's right-hand side `toPascalCase(x)` does
not equal this.) -/
theorem C5_round_trip_amended :
    ∀ (w : List Char) (ws : List (List Char)),
      loWord w → (∀ v ∈ ws, loWord v) → noAdj ws →
      toPascalCase (to_snake_case (camelWords w ws)) = upFirst (camelWords w ws) :=
  pascal_snake_round_trip

/-- Witness for C5 amended at "parseExpr" = camelWords "parse" ["expr"]. -/
theorem C5_round_trip_amended_witness :
    toPascalCase (to_snake_case (camelWords ("parse".toList) [("expr".toList)])) =
      upFirst (camelWords ("parse".toList) [("expr".toList)]) :=
  C5_round_trip_amended ("parse".toList) [("expr".toList)]
    ⟨by decide, by decide⟩
    (by intro v hv; rw [List.mem_singleton.mp hv]; exact ⟨by decide, by decide⟩)
    trivial

/-! ### Characterizing the rule scan (C7) -/

theorem ws_toNat {c : Char} (h : isWs c = true) :
    c.toNat = 32 ∨ c.toNat = 9 ∨ c.toNat = 10 ∨ c.toNat = 13 ∨
    c.toNat = 11 ∨ c.toNat = 12 := by
  simp only [isWs, Bool.or_eq_true, decide_eq_true_eq] at h
  rcases h with ((((h | h) | h) | h) | h) | h
  · subst h; exact Or.inl rfl
  · subst h; exact Or.inr (Or.inl rfl)
  · subst h; exact Or.inr (Or.inr (Or.inl rfl))
  · subst h; exact Or.inr (Or.inr (Or.inr (Or.inl rfl)))
  · subst h; exact Or.inr (Or.inr (Or.inr (Or.inr (Or.inl rfl))))
  · subst h; exact Or.inr (Or.inr (Or.inr (Or.inr (Or.inr rfl))))

theorem lo_not_ws {c : Char} (h : isLo c = true) : isWs c = false := by
  have h1 := lo_toNat h
  cases hb : isWs c with
  | false => rfl
  | true =>
    have := ws_toNat hb
    omega

theorem identCh_toNat {c : Char} (h : isIdentCh c = true) :
    (97 ≤ c.toNat ∧ c.toNat ≤ 122) ∨ (65 ≤ c.toNat ∧ c.toNat ≤ 90) ∨
    c.toNat = 95 := by
  simp only [isIdentCh, Bool.or_eq_true, decide_eq_true_eq] at h
  rcases h with (h | h) | h
  · exact Or.inl (lo_toNat h)
  · exact Or.inr (Or.inl (up_toNat h))
  · subst h; exact Or.inr (Or.inr rfl)

theorem identCh_not_ws {c : Char} (h : isIdentCh c = true) : isWs c = false := by
  have h1 := identCh_toNat h
  cases hb : isWs c with
  | false => rfl
  | true =>
    have := ws_toNat hb
    omega

theorem identCh_ne_nl {c : Char} (h : isIdentCh c = true) : c ≠ '\n' := by
  have h1 := identCh_toNat h
  exact toNat_ne_nl (by omega)

theorem matchRule_nil : matchRule [] = none := rfl

/-- A whitespace prefix does not affect the rule pattern. -/
theorem matchRule_ws_cons {c : Char} (h : isWs c = true) (rest : List Char) :
    matchRule (c :: rest) = matchRule rest := by
  unfold matchRule
  rw [List.dropWhile_cons_of_pos h]

theorem matchRule_ws_append {w : List Char} (h : ∀ c ∈ w, isWs c = true)
    (z : List Char) : matchRule (w ++ z) = matchRule z := by
  induction w with
  | nil => rfl
  | cons c w' ih =>
    rw [List.cons_append, matchRule_ws_cons (h c (by simp)),
      ih (fun x hx => h x (by simp [hx]))]

theorem ws_not_identCh {c : Char} (h : isWs c = true) : isIdentCh c = false := by
  have h1 := ws_toNat h
  cases hb : isIdentCh c with
  | false => rfl
  | true =>
    have := identCh_toNat hb
    omega

/-- Splitting a run: `takeWhile`/`dropWhile` on a satisfying prefix followed
by a failing head. -/
theorem takeWhile_run (p : Char → Bool) (a : List Char) (d : Char)
    (b : List Char) (ha : ∀ c ∈ a, p c = true) (hd : p d = false) :
    (a ++ d :: b).takeWhile p = a ∧ (a ++ d :: b).dropWhile p = d :: b := by
  induction a with
  | nil =>
    constructor
    · exact List.takeWhile_cons_of_neg (by rw [hd]; exact Bool.false_ne_true)
    · exact List.dropWhile_cons_of_neg (by rw [hd]; exact Bool.false_ne_true)
  | cons c a' ih =>
    have hc : p c = true := ha c (by simp)
    obtain ⟨ih1, ih2⟩ := ih (fun x hx => ha x (by simp [hx]))
    constructor
    · rw [List.cons_append, List.takeWhile_cons_of_pos hc, ih1]
    · rw [List.cons_append, List.dropWhile_cons_of_pos hc, ih2]

/-- Direct evaluation of the rule pattern on its decomposed successful
shape. -/
theorem matchRule_eval (c0 : Char) (nmtail w2 s2 : List Char)
    (hc0 : isLo c0 = true) (hnm : ∀ c ∈ nmtail, isIdentCh c = true)
    (hw2 : ∀ c ∈ w2, isWs c = true) :
    matchRule ((c0 :: nmtail) ++ (w2 ++ ':' :: s2)) = some (c0 :: nmtail, s2) := by
  have hrun2 := takeWhile_run isWs w2 ':' s2 hw2 (by decide)
  have hrun1 : (nmtail ++ (w2 ++ ':' :: s2)).takeWhile isIdentCh = nmtail ∧
      (nmtail ++ (w2 ++ ':' :: s2)).dropWhile isIdentCh = w2 ++ ':' :: s2 := by
    cases w2 with
    | nil =>
      simpa using takeWhile_run isIdentCh nmtail ':' s2 hnm (by decide)
    | cons d w2' =>
      have hd : isIdentCh d = false := ws_not_identCh (hw2 d (by simp))
      simpa using takeWhile_run isIdentCh nmtail d (w2' ++ ':' :: s2) hnm hd
  have hdw : (c0 :: (nmtail ++ (w2 ++ ':' :: s2))).dropWhile isWs =
      c0 :: (nmtail ++ (w2 ++ ':' :: s2)) :=
    List.dropWhile_cons_of_neg (by rw [lo_not_ws hc0]; exact Bool.false_ne_true)
  unfold matchRule
  simp only [List.cons_append, hdw, hc0, if_true, hrun1.1, hrun1.2, hrun2.2]

/-- Decomposition of a successful rule-pattern match. -/
theorem matchRule_some_shape {s : List Char} {n s2 : List Char}
    (h : matchRule s = some (n, s2)) :
    ∃ w1 c0 nmtail w2, s = w1 ++ ((c0 :: nmtail) ++ (w2 ++ ':' :: s2)) ∧
      (∀ c ∈ w1, isWs c = true) ∧ isLo c0 = true ∧
      (∀ c ∈ nmtail, isIdentCh c = true) ∧ (∀ c ∈ w2, isWs c = true) ∧
      n = c0 :: nmtail := by
  unfold matchRule at h
  split at h
  · rename_i c s1 heq1
    by_cases hc : isLo c = true
    · rw [if_pos hc] at h
      split at h
      · rename_i s2' heq2
        simp only [Option.some.injEq, Prod.mk.injEq] at h
        refine ⟨s.takeWhile isWs, c, s1.takeWhile isIdentCh,
          (s1.dropWhile isIdentCh).takeWhile isWs, ?_,
          (fun x hx => List.mem_takeWhile_imp hx), hc,
          (fun x hx => List.mem_takeWhile_imp hx),
          (fun x hx => List.mem_takeWhile_imp hx), h.1.symm⟩
        have e1 : s = s.takeWhile isWs ++ s.dropWhile isWs :=
          (List.takeWhile_append_dropWhile isWs s).symm
        have e2 : s1 = s1.takeWhile isIdentCh ++ s1.dropWhile isIdentCh :=
          (List.takeWhile_append_dropWhile isIdentCh s1).symm
        have e3 : s1.dropWhile isIdentCh =
            (s1.dropWhile isIdentCh).takeWhile isWs ++
              (s1.dropWhile isIdentCh).dropWhile isWs :=
          (List.takeWhile_append_dropWhile isWs (s1.dropWhile isIdentCh)).symm
        conv_lhs => rw [e1, heq1]
        simp only [List.cons_append]
        congr 1
        congr 1
        conv_lhs => rw [e2]
        congr 1
        conv_lhs => rw [e3, heq2, h.2]
      · exact absurd h (by simp)
    · rw [if_neg hc] at h
      exact absurd h (by simp)
  · exact absurd h (by simp)

theorem matchRule_some_length {s n s2 : List Char}
    (h : matchRule s = some (n, s2)) : s2.length < s.length := by
  obtain ⟨w1, c0, nmtail, w2, hs, -, -, -, -, -⟩ := matchRule_some_shape h
  rw [hs]
  simp only [List.length_append, List.length_cons]
  omega

theorem matchRule_some_suffix {s n s2 : List Char}
    (h : matchRule s = some (n, s2)) : s2 <:+ s := by
  obtain ⟨w1, c0, nmtail, w2, hs, -, -, -, -, -⟩ := matchRule_some_shape h
  exact ⟨w1 ++ ((c0 :: nmtail) ++ (w2 ++ [':'])), by rw [hs]; simp⟩

/-- Line-start suffixes of a concatenation. -/
theorem aux_append (A B : List Char) :
    lineSuffixesAux (A ++ B) =
      (lineSuffixesAux A).map (· ++ B) ++ lineSuffixesAux B := by
  induction A with
  | nil => simp [lineSuffixesAux]
  | cons c A' ih =>
    simp only [List.cons_append, lineSuffixesAux]
    by_cases hc : c = '\n'
    · simp [hc, ih]
    · simp [hc, ih]

theorem mem_aux_suffix {s' s : List Char} (h : s' ∈ lineSuffixesAux s) :
    s' <:+ s := by
  induction s with
  | nil => simp [lineSuffixesAux] at h
  | cons c rest ih =>
    simp only [lineSuffixesAux, List.mem_append] at h
    rcases h with h | h
    · by_cases hc : c = '\n'
      · rw [if_pos hc] at h
        rw [List.mem_singleton.mp h]
        exact ⟨[c], rfl⟩
      · rw [if_neg hc] at h
        simp at h
    · exact (ih h).trans (List.suffix_cons c rest)

theorem aux_subset_of_suffix {a s : List Char} (h : a <:+ s) :
    lineSuffixesAux a ⊆ lineSuffixesAux s := by
  obtain ⟨t, rfl⟩ := h
  rw [aux_append]
  intro x hx
  exact List.mem_append_right _ hx

theorem aux_of_no_nl {A : List Char} (h : ∀ c ∈ A, c ≠ '\n') :
    lineSuffixesAux A = [] := by
  induction A with
  | nil => rfl
  | cons c A' ih =>
    simp only [lineSuffixesAux]
    rw [if_neg (h c (by simp)), ih (fun x hx => h x (by simp [hx]))]
    rfl

/-- The classification of captures at line starts inside a matched region:
a line start inside the leading whitespace produces the same capture, a
line start inside the trailing whitespace produces no match, and everything
else lies after the match. -/
theorem aux_capture_of_match {s n s2 : List Char}
    (h : matchRule s = some (n, s2)) :
    ∀ s' ∈ lineSuffixesAux s, ∀ n' r', matchRule s' = some (n', r') →
      (n' = n ∧ r' = s2) ∨ s' ∈ lineSuffixesAux s2 := by
  obtain ⟨w1, c0, nmtail, w2, hs, hw1, hc0, hnm, hw2, hn⟩ := matchRule_some_shape h
  intro s' hs' n' r' hm'
  rw [hs] at hs'
  rw [aux_append] at hs'
  rcases List.mem_append.mp hs' with h1 | h2
  · -- inside the leading whitespace: same capture
    obtain ⟨a, ha, rfl⟩ := List.mem_map.mp h1
    have haws : ∀ c ∈ a, isWs c = true := by
      intro c hc
      exact hw1 c ((mem_aux_suffix ha).sublist.subset hc)
    rw [matchRule_ws_append haws, matchRule_eval c0 nmtail w2 s2 hc0 hnm hw2] at hm'
    simp only [Option.some.injEq, Prod.mk.injEq] at hm'
    exact Or.inl ⟨hm'.1.symm.trans hn.symm, hm'.2.symm⟩
  · rw [aux_append] at h2
    rcases List.mem_append.mp h2 with h3 | h4
    · -- inside the name: impossible, the name has no newline
      rw [aux_of_no_nl (by
        intro c hc
        rcases List.mem_cons.mp hc with rfl | hc'
        · exact lo_ne_nl hc0
        · exact identCh_ne_nl (hnm c hc'))] at h3
      simp at h3
    · rw [aux_append] at h4
      rcases List.mem_append.mp h4 with h5 | h6
      · -- inside the trailing whitespace: no match
        obtain ⟨a, ha, rfl⟩ := List.mem_map.mp h5
        have haws : ∀ c ∈ a, isWs c = true := by
          intro c hc
          exact hw2 c ((mem_aux_suffix ha).sublist.subset hc)
        rw [matchRule_ws_append haws] at hm'
        have : matchRule (':' :: s2) = none := rfl
        rw [this] at hm'
        exact absurd hm' (by simp)
      · -- after the match
        simp only [lineSuffixesAux] at h6
        rw [if_neg (by decide)] at h6
        simp only [List.nil_append] at h6
        exact Or.inr h6

theorem mem_addSet (x y : List Char) (l : List (List Char)) :
    y ∈ addSet x l ↔ y = x ∨ y ∈ l := by
  unfold addSet
  by_cases h : x ∈ l
  · rw [if_pos h]
    constructor
    · exact Or.inr
    · rintro (rfl | hy)
      · exact h
      · exact hy
  · rw [if_neg h]
    simp only [List.mem_append, List.mem_singleton]
    tauto

theorem addSet_nodup (x : List Char) (l : List (List Char)) (h : l.Nodup) :
    (addSet x l).Nodup := by
  unfold addSet
  by_cases hx : x ∈ l
  · rw [if_pos hx]; exact h
  · rw [if_neg hx]
    refine List.Nodup.append h (List.nodup_singleton x) ?_
    intro a ha hb
    rw [List.mem_singleton] at hb
    exact hx (hb ▸ ha)

/-- Line-start suffixes of a cons, as a property transformer. -/
theorem aux_cons_iff (c : Char) (rest : List Char) (P : List Char → Prop) :
    (∃ s' ∈ lineSuffixesAux (c :: rest), P s') ↔
      ((c = '\n' ∧ P rest) ∨ ∃ s' ∈ lineSuffixesAux rest, P s') := by
  simp only [lineSuffixesAux, List.mem_append]
  by_cases hc : c = '\n'
  · rw [if_pos hc]
    constructor
    · rintro ⟨s', hs', hp⟩
      rcases hs' with hs1 | hs2
      · rw [List.mem_singleton.mp hs1] at hp
        exact Or.inl ⟨hc, hp⟩
      · exact Or.inr ⟨s', hs2, hp⟩
    · rintro (⟨-, hp⟩ | ⟨s', hs', hp⟩)
      · exact ⟨rest, Or.inl (by simp), hp⟩
      · exact ⟨s', Or.inr hs', hp⟩
  · rw [if_neg hc]
    constructor
    · rintro ⟨s', hs', hp⟩
      rcases hs' with hs1 | hs2
      · simp at hs1
      · exact Or.inr ⟨s', hs2, hp⟩
    · rintro (⟨hcc, -⟩ | ⟨s', hs', hp⟩)
      · exact absurd hcc hc
      · exact ⟨s', Or.inr hs', hp⟩

/-- Membership characterization of the fueled rule scan. -/
theorem scanRulesF_char : ∀ fuel : Nat, ∀ s : List Char, ∀ b : Bool,
    ∀ acc : List (List Char), ∀ x : List Char, s.length < fuel →
    (x ∈ scanRulesF fuel s b acc ↔ x ∈ acc ∨
      (b = true ∧ ∃ n r, matchRule s = some (n, r) ∧ x = to_snake_case n) ∨
      (∃ s' ∈ lineSuffixesAux s, ∃ n r, matchRule s' = some (n, r) ∧
        x = to_snake_case n)) := by
  intro fuel
  induction fuel with
  | zero =>
    intro s b acc x h
    omega
  | succ f ih =>
    intro s b acc x h
    cases s with
    | nil =>
      simp [scanRulesF, matchRule_nil, lineSuffixesAux]
    | cons c rest =>
      have hrest : rest.length < f := by
        simp only [List.length_cons] at h
        omega
      by_cases hb : b = true
      · subst hb
        cases hm : matchRule (c :: rest) with
        | some p =>
          obtain ⟨n, s2⟩ := p
          have hstep : scanRulesF (f + 1) (c :: rest) true acc =
              scanRulesF f s2 false (addSet (to_snake_case n) acc) := by
            rw [scanRulesF.eq_def]
            simp [hm]
          have hs2 : s2.length < f := by
            have := matchRule_some_length hm
            simp only [List.length_cons] at this h
            omega
          rw [hstep, ih s2 false (addSet (to_snake_case n) acc) x hs2]
          simp only [mem_addSet, Bool.false_eq_true, false_and, false_or]
          constructor
          · rintro ((rfl | hacc) | haux)
            · exact Or.inr (Or.inl ⟨by trivial, n, s2, rfl, rfl⟩)
            · exact Or.inl hacc
            · obtain ⟨s', hs', n', r', hm', rfl⟩ := haux
              refine Or.inr (Or.inr ⟨s', ?_, n', r', hm', rfl⟩)
              exact aux_subset_of_suffix (matchRule_some_suffix hm) hs'
          · rintro (hacc | ⟨-, n', r', hm', rfl⟩ | ⟨s', hs', n', r', hm', rfl⟩)
            · exact Or.inl (Or.inr hacc)
            · simp only [Option.some.injEq, Prod.mk.injEq] at hm'
              exact Or.inl (Or.inl (by rw [← hm'.1]))
            · rcases aux_capture_of_match hm s' hs' n' r' hm' with ⟨rfl, rfl⟩ | hin
              · exact Or.inl (Or.inl rfl)
              · exact Or.inr ⟨s', hin, n', r', hm', rfl⟩
        | none =>
          have hstep : scanRulesF (f + 1) (c :: rest) true acc =
              scanRulesF f rest (c == '\n') acc := by
            rw [scanRulesF.eq_def]
            simp [hm]
          rw [hstep, ih rest (c == '\n') acc x hrest,
            aux_cons_iff c rest
              (fun s' => ∃ n r, matchRule s' = some (n, r) ∧ x = to_snake_case n)]
          by_cases hc : c = '\n'
          · have hmr : matchRule rest = none := by
              have h2 := matchRule_ws_cons (c := c) (by rw [hc]; decide) rest
              rw [← h2, hm]
            have hbeq : (c == '\n') = true := by simp [hc]
            rw [hbeq]
            constructor
            · rintro (hacc | ⟨-, n, r, hmm, -⟩ | haux)
              · exact Or.inl hacc
              · rw [hmr] at hmm
                exact absurd hmm (by simp)
              · exact Or.inr (Or.inr (Or.inr haux))
            · rintro (hacc | ⟨-, n, r, hmm, -⟩ | ⟨-, n, r, hmm, -⟩ | haux)
              · exact Or.inl hacc
              · exact absurd hmm (by simp)
              · rw [hmr] at hmm
                exact absurd hmm (by simp)
              · exact Or.inr (Or.inr haux)
          · have hbeq : (c == '\n') = false := by simp [hc]
            rw [hbeq]
            constructor
            · rintro (hacc | ⟨hfu, -⟩ | haux)
              · exact Or.inl hacc
              · exact absurd hfu (by simp)
              · exact Or.inr (Or.inr (Or.inr haux))
            · rintro (hacc | ⟨-, n, r, hmm, -⟩ | ⟨hcc, -⟩ | haux)
              · exact Or.inl hacc
              · exact absurd hmm (by simp)
              · exact absurd hcc hc
              · exact Or.inr (Or.inr haux)
      · have hbf : b = false := by
          cases b
          · rfl
          · exact absurd rfl hb
        subst hbf
        have hstep : scanRulesF (f + 1) (c :: rest) false acc =
            scanRulesF f rest (c == '\n') acc := by
          rw [scanRulesF.eq_def]
          simp
        rw [hstep, ih rest (c == '\n') acc x hrest,
          aux_cons_iff c rest
            (fun s' => ∃ n r, matchRule s' = some (n, r) ∧ x = to_snake_case n)]
        by_cases hc : c = '\n'
        · have hbeq : (c == '\n') = true := by simp [hc]
          rw [hbeq]
          constructor
          · rintro (hacc | ⟨-, n, r, hmm, hx⟩ | haux)
            · exact Or.inl hacc
            · exact Or.inr (Or.inr (Or.inl ⟨hc, n, r, hmm, hx⟩))
            · exact Or.inr (Or.inr (Or.inr haux))
          · rintro (hacc | ⟨hfu, -⟩ | ⟨-, n, r, hmm, hx⟩ | haux)
            · exact Or.inl hacc
            · exact absurd hfu (by simp)
            · exact Or.inr (Or.inl ⟨rfl, n, r, hmm, hx⟩)
            · exact Or.inr (Or.inr haux)
        · have hbeq : (c == '\n') = false := by simp [hc]
          rw [hbeq]
          constructor
          · rintro (hacc | ⟨hfu, -⟩ | haux)
            · exact Or.inl hacc
            · exact absurd hfu (by simp)
            · exact Or.inr (Or.inr (Or.inr haux))
          · rintro (hacc | ⟨hfu, -⟩ | ⟨hcc, -⟩ | haux)
            · exact Or.inl hacc
            · exact absurd hfu (by simp)
            · exact absurd hcc hc
            · exact Or.inr (Or.inr haux)

theorem scanRulesF_nodup : ∀ fuel : Nat, ∀ s : List Char, ∀ b : Bool,
    ∀ acc : List (List Char), acc.Nodup → (scanRulesF fuel s b acc).Nodup := by
  intro fuel
  induction fuel with
  | zero => intro s b acc h; exact h
  | succ f ih =>
    intro s b acc h
    cases s with
    | nil => exact h
    | cons c rest =>
      by_cases hb : b = true
      · subst hb
        cases hm : matchRule (c :: rest) with
        | some p =>
          obtain ⟨n, s2⟩ := p
          have hstep : scanRulesF (f + 1) (c :: rest) true acc =
              scanRulesF f s2 false (addSet (to_snake_case n) acc) := by
            rw [scanRulesF.eq_def]
            simp [hm]
          rw [hstep]
          exact ih s2 false _ (addSet_nodup _ _ h)
        | none =>
          have hstep : scanRulesF (f + 1) (c :: rest) true acc =
              scanRulesF f rest (c == '\n') acc := by
            rw [scanRulesF.eq_def]
            simp [hm]
          rw [hstep]
          exact ih rest _ _ h
      · have hbf : b = false := by
          cases b
          · rfl
          · exact absurd rfl hb
        subst hbf
        have hstep : scanRulesF (f + 1) (c :: rest) false acc =
            scanRulesF f rest (c == '\n') acc := by
          rw [scanRulesF.eq_def]
          simp
        rw [hstep]
        exact ih rest _ _ h

/-- The headline characterization: the extracted rule set consists of the
snake_case conversions of the names matched at line starts. -/
theorem rulesOf_char (t : List Char) (x : List Char) :
    x ∈ rulesOf t ↔ ∃ s ∈ lineSuffixes t, ∃ n r,
      matchRule s = some (n, r) ∧ x = to_snake_case n := by
  unfold rulesOf lineSuffixes
  rw [scanRulesF_char (t.length + 1) t true [] x (by omega)]
  simp only [List.not_mem_nil, false_or, List.mem_cons]
  constructor
  · rintro (⟨-, n, r, hm, rfl⟩ | ⟨s', hs', n, r, hm, rfl⟩)
    · exact ⟨t, Or.inl rfl, n, r, hm, rfl⟩
    · exact ⟨s', Or.inr hs', n, r, hm, rfl⟩
  · rintro ⟨s', hs', n, r, hm, rfl⟩
    rcases hs' with rfl | hs'
    · exact Or.inl ⟨trivial, n, r, hm, rfl⟩
    · exact Or.inr ⟨s', hs', n, r, hm, rfl⟩

/-- C7 counterexample: the claim's line-by-line reading — a rule line must
have its name immediately followed by the colon, and lines of any other
shape contribute nothing — fails on the text "stat :": no line matches the
claim's shape (the colon is separated by a space), yet the code extracts
the rule `stat`, because the pattern permits whitespace before the
colon. -/
theorem C7_rule_lines_cex :
    rulesOf ("stat :".toList) = [("stat".toList)] ∧
    (linesOf ("stat :".toList)).map claimLineRule = [none] := by
  decide

/-- C7 amended: a rule is contributed exactly by the positions at line
starts (the whole text, and each suffix following a newline) from which,
after optional whitespace, a lowercase letter followed by letters or
underscores and then — after optional further whitespace, which may even
span line breaks — a colon can be matched; the extracted set holds the
snake_case conversions of exactly the names so matched, each name once
(set semantics). -/
theorem C7_rule_lines_amended :
    (∀ t x : List Char, x ∈ rulesOf t ↔ ∃ s ∈ lineSuffixes t, ∃ n r,
      matchRule s = some (n, r) ∧ x = to_snake_case n) ∧
    (∀ t : List Char, (rulesOf t).Nodup) :=
  ⟨rulesOf_char, fun _ => scanRulesF_nodup _ _ _ _ List.nodup_nil⟩

end GenParser
